import Mathlib

/-!
Verification development for the fail2ban-style server core (`ban/server/...`).

The Python sources are shallowly embedded: pure methods become Lean
functions, Python `float` time values are modelled as rationals, Python
arbitrary-precision integers as `Nat`/`Int`, dictionaries as association
lists, and the only exception that can escape `IPAddr` construction is
modelled with `Except`.  Definitions are translated from the source files
`ban/server/ticket.py`, `ban/server/ipdns.py` and `ban/server/jailthread.py`;
the platform primitives `inet_pton`/`inet_ntop` (called by the source through
Python's `socket` module) are modelled after their glibc implementations, and
the two regular expressions `IP_4_RE`/`IP_6_RE` are modelled by equivalent
executable matchers (the translation is noted at each definition).
-/

/-! ### Ticket (ban/server/ticket.py)

`Ticket` stores `_time` (a float, modelled as `Rat`), `_banTime`
(`None` or a number, modelled as `Option Rat`) and `_banCount` (an int).
`MAX_TIME = 0x7FFFFFFFFFFF` is the sentinel returned for permanent bans. -/

structure Ticket where
  time : Rat
  banTime : Option Rat
  banCount : Int
deriving DecidableEq, Repr

/-- Sentinel `Ticket.MAX_TIME = 0X7FFFFFFFFFFF` from ticket.py. -/
def Ticket.MAX_TIME : Rat := 0x7FFFFFFFFFFF

/-- Model of `Ticket.getBanTime(defaultBT)`:
`self._banTime if self._banTime is not None else defaultBT`. -/
def Ticket.getBanTime (t : Ticket) (defaultBT : Option Rat) : Option Rat :=
  match t.banTime with
  | some b => some b
  | none => defaultBT

/-- Model of `Ticket.getEndOfBanTime(defaultBT)`.  When both `_banTime` and
`defaultBT` are `None` the Python code would raise a `TypeError` on
`self._time + None`; that fallible outcome is modelled as `none`. -/
def Ticket.getEndOfBanTime (t : Ticket) (defaultBT : Option Rat) : Option Rat :=
  match t.getBanTime defaultBT with
  | none => none
  | some bantime => if bantime = -1 then some Ticket.MAX_TIME else some (t.time + bantime)

/-- Model of `Ticket.isTimedOut(time, defaultBT)`; the `None` effective ban
time (a `TypeError` in Python) is modelled as `none`. -/
def Ticket.isTimedOut (t : Ticket) (now : Rat) (defaultBT : Option Rat) : Option Bool :=
  match t.getBanTime defaultBT with
  | none => none
  | some bantime => if bantime = -1 then some false else some (decide (now > t.time + bantime))

/-- Model of `Ticket.setBanCount(value, always)`:
`if always or value > self._banCount: self._banCount = value`. -/
def Ticket.setBanCount (t : Ticket) (value : Int) (always : Bool) : Ticket :=
  if always = true ∨ value > t.banCount then { t with banCount := value } else t

/-! ### FailTicket.adjustTime (ban/server/ticket.py)

`FailTicket` additionally stores `_firstTime` and `_retry`.  `adjustTime`
does float arithmetic (`self._retry / float(time - self._firstTime) * maxTime`)
and Python 3's `round`, which rounds halves to even; both are modelled
exactly over the rationals. -/

structure FailTicket where
  time : Rat
  firstTime : Rat
  retry : Int
deriving DecidableEq, Repr

/-- Python 3 `round` to an integer: nearest, with ties going to the even
integer.  `int(...)` applied on top is the identity on the result. -/
def pyRound (q : Rat) : Int :=
  let f : Int := ⌊q⌋
  let r : Rat := q - (f : Rat)
  if r < 1/2 then f
  else if 1/2 < r then f + 1
  else if f % 2 = 0 then f else f + 1

/-- Model of `FailTicket.adjustTime(time, maxTime)`. -/
def FailTicket.adjustTime (t : FailTicket) (tm maxTime : Rat) : FailTicket :=
  if tm > t.time then
    if t.firstTime < tm - maxTime then
      { time := tm
        firstTime := tm - maxTime
        retry := pyRound ((t.retry : Rat) / (tm - t.firstTime) * maxTime) }
    else { t with time := tm }
  else t

/-! ### Ticket data dictionary (ban/server/ticket.py)

`Ticket._data` is a Python dict whose values may be `None`; it is modelled
as an association list with unique keys over `Option α` values (`none`
standing for Python's `None`).  The concrete values `matches or []` and `0`
installed by the constructor are abstracted as two given non-`None`
values. -/

/-- Dictionary assignment `d[k] = v`: replace an existing binding in place,
otherwise append the new binding. -/
def dictSet {α : Type} (d : List (String × Option α)) (k : String) (v : Option α) :
    List (String × Option α) :=
  match d with
  | [] => [(k, v)]
  | (k', v') :: rest => if k' = k then (k, v) :: rest else (k', v') :: dictSet rest k v

/-- Dictionary merge `d.update(entries)`, later entries overwriting earlier
ones. -/
def dictUpdate {α : Type} (d entries : List (String × Option α)) :
    List (String × Option α) :=
  entries.foldl (fun acc kv => dictSet acc kv.1 kv.2) d

/-- Filter used by `Ticket`: keep only the entries whose value
`is not None`. -/
def dictDropNone {α : Type} (d : List (String × Option α)) : List (String × Option α) :=
  d.filter (fun kv => kv.2.isSome)

/-- Model of the data-dictionary part of `Ticket.__init__` (the `ticket=None`
path): start from `{'matches': matches or [], 'failures': 0}` — abstracted as
the two non-`None` values `mv` and `fv` — then, when `data is not None`, copy
every binding of `data` whose value `is not None`. -/
def Ticket.mkData {α : Type} (mv fv : α) (data : Option (List (String × Option α))) :
    List (String × Option α) :=
  let base : List (String × Option α) := [("matches", some mv), ("failures", some fv)]
  match data with
  | none => base
  | some d => (dictDropNone d).foldl (fun acc kv => dictSet acc kv.1 kv.2) base

/-- The possible positional-argument shapes of `Ticket.setData(*args)`:
no positional argument, a single dict (overwrite), a `k, v` pair, or a flat
`k1, v1, k2, v2, ...` list (modelled, after `zip`, as a pair list). -/
inductive SetDataArgs (α : Type) where
  | nothing : SetDataArgs α
  | overwrite : List (String × Option α) → SetDataArgs α
  | single : String → Option α → SetDataArgs α
  | pairList : List (String × Option α) → SetDataArgs α

/-- Model of `Ticket.setData(*args, **argv)` acting on the data dict `d`:
the overwrite form pre-filters `None` values, the merge forms do not, keyword
arguments are merged last, and a final pass deletes every `None`-valued
entry. -/
def Ticket.setData {α : Type} (d : List (String × Option α)) (args : SetDataArgs α)
    (argv : List (String × Option α)) : List (String × Option α) :=
  let d1 := match args with
    | .nothing => d
    | .overwrite nd => dictUpdate [] (dictDropNone nd)
    | .single k v => dictSet d k v
    | .pairList l => dictUpdate d l
  let d2 := dictUpdate d1 argv
  dictDropNone d2

/-! ### JailThread stop/onStop (ban/server/jailthread.py)

The claim concerns sequential interleavings of `stop()` calls with the
worker's end-of-run callback (`run_with_except_hook` invokes `self.onStop()`
after `run` returns).  The state records the `active` flag, whether the
`onStop` attribute still holds the real cleanup (before `stop` replaces it
with `lambda:()`), and how many times the real cleanup body has run.
`done()` only joins/cleans up other resources and is irrelevant to the
cleanup count. -/

structure JTState where
  active : Bool
  realOnStop : Bool
  runs : Nat
deriving DecidableEq, Repr

/-- Events acting on a started `JailThread`: a call to `stop()`, or the
worker thread finishing its `run` method (which then calls `self.onStop()`
without replacing it). -/
inductive JTEvent where
  | stop : JTEvent
  | workerEnd : JTEvent
deriving DecidableEq, Repr

/-- State of a freshly started thread: `active = True`, `onStop` is the real
cleanup, which has not run yet. -/
def JTState.started : JTState := { active := true, realOnStop := true, runs := 0 }

/-- One event step.  `stop()` clears `active` (the `if self.active:` guard
only matters for the not-started `None` state, which is not modelled), calls
the current `self.onStop()` and then replaces it by a no-op; the worker's
end-of-run callback calls the current `self.onStop()` and replaces
nothing. -/
def JTState.step (st : JTState) : JTEvent → JTState
  | .stop =>
      { active := false
        realOnStop := false
        runs := st.runs + (if st.realOnStop then 1 else 0) }
  | .workerEnd =>
      { st with runs := st.runs + (if st.realOnStop then 1 else 0) }

/-- Run a sequence of events from a state. -/
def JTState.run (st : JTState) (evs : List JTEvent) : JTState :=
  evs.foldl JTState.step st

/-- Number of worker-end events occurring before the first `stop()` in the
sequence (each such event still sees the real `onStop`). -/
def JTEvent.earlyWorkerEnds : List JTEvent → Nat
  | [] => 0
  | .stop :: _ => 0
  | .workerEnd :: rest => 1 + JTEvent.earlyWorkerEnds rest

/-! ### Character and digit utilities

Strings are handled as `List Char`.  Decimal and hexadecimal printing is
implemented with an explicit fuel so that every definition is structural
(and therefore evaluates inside the kernel); 40 digits is far more than any
128-bit quantity needs. -/

/-- ASCII decimal digit test (`\d` in the source regexes). -/
def isDigitC (c : Char) : Bool := 48 ≤ c.toNat && c.toNat ≤ 57

/-- ASCII hexadecimal digit test (`[0-9a-fA-F]` in `IP_6_RE`, and the digit
set accepted by `inet_pton` for IPv6 groups). -/
def isHexD (c : Char) : Bool :=
  isDigitC c || (97 ≤ c.toNat && c.toNat ≤ 102) || (65 ≤ c.toNat && c.toNat ≤ 70)

/-- Numeric value of a decimal or hexadecimal digit character. -/
def hexDigitVal (c : Char) : Nat :=
  if isDigitC c then c.toNat - 48
  else if 97 ≤ c.toNat && c.toNat ≤ 102 then c.toNat - 87
  else if 65 ≤ c.toNat && c.toNat ≤ 70 then c.toNat - 55
  else 0

/-- Lower-case digit character for a value below 16 (the `%x` and `%u`
formats of `inet_ntop` print lower-case digits without leading zeros). -/
def hexLowChar (d : Nat) : Char :=
  if d < 10 then Char.ofNat (48 + d) else Char.ofNat (87 + d)

/-- Digit string of `n` in the given base, most significant digit first, no
leading zeros (`"0"` for zero), computed with structural fuel. -/
def digitsAux (base : Nat) : Nat → Nat → List Char
  | 0, _ => []
  | fuel+1, n =>
    if n < base then [hexLowChar n]
    else digitsAux base fuel (n / base) ++ [hexLowChar (n % base)]

/-- Decimal representation (`%u` / `%d`). -/
def decChars (n : Nat) : List Char := digitsAux 10 40 n

/-- Lower-case hexadecimal representation (`%x`). -/
def hexChars (n : Nat) : List Char := digitsAux 16 40 n

/-- Value of a decimal digit string (used for `int(s)` on the `\d+` CIDR
group, where the digit shape is guaranteed by the regex). -/
def decVal (t : List Char) : Nat := t.foldl (fun acc c => acc * 10 + (c.toNat - 48)) 0

/-- Value of a hexadecimal digit string. -/
def hexVal (t : List Char) : Nat := t.foldl (fun acc c => acc * 16 + hexDigitVal c) 0

/-- Split a character list at every occurrence of `sep` (like Python
`str.split(sep)`: empty pieces are kept, the result is never empty). -/
def splitOnC (sep : Char) : List Char → List (List Char)
  | [] => [[]]
  | a :: rest =>
    match splitOnC sep rest with
    | [] => [[]]
    | t :: ts => if a = sep then [] :: t :: ts else (a :: t) :: ts

/-- Join tokens with single `sep` separators (inverse of `splitOnC`). -/
def joinSep (sep : Char) : List (List Char) → List Char
  | [] => []
  | [t] => t
  | t :: t' :: ts => t ++ sep :: joinSep sep (t' :: ts)

/-- Join tokens with single `':'` separators. -/
def joinColon : List (List Char) → List Char := joinSep ':'

/-! ### inet_pton / inet_ntop for IPv4

Models of the platform functions called by `ipdns.py` through
`socket.inet_pton` / `socket.inet_ntop` (glibc semantics): a dotted quad of
1–3 decimal digits per octet, value at most 255, leading zeros rejected;
printing is plain `%u.%u.%u.%u` of the four big-endian bytes. -/

/-- Octet acceptance of glibc `inet_pton(AF_INET)`. -/
def octetOk (t : List Char) : Bool :=
  !t.isEmpty && t.all isDigitC && (t.length = 1 || t.head? != some '0') && decVal t ≤ 255

/-- Model of `inet_pton(AF_INET)` combined with the
`struct.unpack("!L", binary)` step of `IPAddr.__init`: the accepted string
is converted directly to the 32-bit big-endian integer. -/
def pton4 (s : List Char) : Option Nat :=
  match splitOnC '.' s with
  | [a, b, c, d] =>
    if octetOk a && octetOk b && octetOk c && octetOk d then
      some (((decVal a * 256 + decVal b) * 256 + decVal c) * 256 + decVal d)
    else none
  | _ => none

/-- Model of `inet_ntop(AF_INET)` applied to `struct.pack("!L", addr)`. -/
def ntop4 (a : Nat) : List Char :=
  decChars (a / 16777216 % 256) ++ '.' ::
  decChars (a / 65536 % 256) ++ '.' ::
  decChars (a / 256 % 256) ++ '.' ::
  decChars (a % 256)

/-! ### inet_pton / inet_ntop for IPv6

A 128-bit address is viewed as eight 16-bit words, most significant first
(the big-endian byte order of `struct.pack("!QQ", hi, lo)`). -/

/-- Most-significant-first 16-bit words (`k` of them) of a number. -/
def toWords16 : Nat → Nat → List Nat
  | 0, _ => []
  | k+1, a => toWords16 k (a / 65536) ++ [a % 65536]

/-- The eight 16-bit words of a 128-bit address. -/
def ipWords (a : Nat) : List Nat := toWords16 8 a

/-- Recompose a most-significant-first word list. -/
def ofWords16 (ws : List Nat) : Nat := ws.foldl (fun acc w => acc * 65536 + w) 0

/-- Keep the longer of two candidate zero runs, preferring the earlier one on
ties (glibc replaces `best` only when `cur.len > best.len`). -/
def mergeRun (best cur : Option (Nat × Nat)) : Option (Nat × Nat) :=
  match cur with
  | none => best
  | some c =>
    match best with
    | none => some c
    | some b => if b.2 < c.2 then some c else some b

/-- Scan of glibc `inet_ntop(AF_INET6)` locating the best (longest, then
leftmost) run of zero words; runs of length 1 are discarded at the end. -/
def bestRunAux : List Nat → Nat → Option (Nat × Nat) → Option (Nat × Nat) → Option (Nat × Nat)
  | [], _, cur, best =>
    match mergeRun best cur with
    | none => none
    | some bl => if bl.2 < 2 then none else some bl
  | w :: rest, i, cur, best =>
    if w = 0 then
      bestRunAux rest (i+1) (match cur with | none => some (i, 1) | some (b, l) => some (b, l+1)) best
    else
      bestRunAux rest (i+1) none (mergeRun best cur)

/-- Best zero run `(base, length)` of a word list, if any of length ≥ 2. -/
def bestRun (ws : List Nat) : Option (Nat × Nat) := bestRunAux ws 0 none none

/-- Membership of index `i` in the best run. -/
def inRun (best : Option (Nat × Nat)) (i : Nat) : Bool :=
  match best with
  | some (b, l) => b ≤ i && i < b + l
  | none => false

/-- The `i == 6` encapsulated-IPv4 test of glibc `inet_ntop(AF_INET6)`
(`best.base == 0 && (best.len == 6 || (best.len == 7 && words[7] != 0x0001)
|| (best.len == 5 && words[5] == 0xffff))`). -/
def embedClause (ws : List Nat) (best : Option (Nat × Nat)) : Bool :=
  match best with
  | none => false
  | some (b, l) =>
    b = 0 && (l = 6 || (l = 7 && ws.getD 7 0 != 1) || (l = 5 && ws.getD 5 0 = 0xffff))

/-- Printing loop of glibc `inet_ntop(AF_INET6)` over word indices `i`:
inside the best run only the run's first index emits `':'`; outside it a
separating `':'` is emitted for `i ≠ 0`, then either the encapsulated
dotted quad of the last four bytes (followed by `break`) or the word in
`%x` format. -/
def ntop6Go (ws : List Nat) (best : Option (Nat × Nat)) : Nat → List Nat → List Char
  | _, [] => []
  | i, w :: rest =>
    if inRun best i then
      (if (match best with | some (b, _) => decide (i = b) | none => false) then [':'] else [])
        ++ ntop6Go ws best (i+1) rest
    else
      (if i ≠ 0 then [':'] else [])
        ++ (if i = 6 && embedClause ws best then
              ntop4 (ws.getD 6 0 * 65536 + ws.getD 7 0)
            else hexChars w ++ ntop6Go ws best (i+1) rest)

/-- Model of glibc `inet_ntop(AF_INET6)` applied to
`struct.pack("!QQ", hi, lo)`: the printing loop above plus the trailing
`':'` when the best run reaches the end of the address. -/
def ntop6 (a : Nat) : List Char :=
  let ws := ipWords a
  let best := bestRun ws
  ntop6Go ws best 0 ws ++
    (match best with | some (b, l) => if b + l = 8 then [':'] else [] | none => [])

/-- First occurrence of `"::"`, returning the pieces before and after it. -/
def findSplit2 : List Char → Option (List Char × List Char)
  | ':' :: ':' :: r => some ([], r)
  | c :: r => (findSplit2 r).map (fun p => (c :: p.1, p.2))
  | [] => none

/-- Colon-separated tokens of a non-empty piece; an empty piece has no
tokens, and an empty token (a stray `':'` at the start, the end, or next to
the `"::"` marker) makes glibc `inet_pton(AF_INET6)` fail. -/
def tokensOf (s : List Char) : Option (List (List Char)) :=
  if s.isEmpty then some [] else
  let ts := splitOnC ':' s
  if ts.any (fun t => t.isEmpty) then none else some ts

/-- Hexadecimal group acceptance of glibc `inet_pton(AF_INET6)`: one to four
hexadecimal digits. -/
def parseHexTok (s : List Char) : Option Nat :=
  if !s.isEmpty && s.length ≤ 4 && s.all isHexD then some (hexVal s) else none

/-- Word values of a token list.  Only the final token of the whole address
may be an encapsulated dotted quad (contributing two words); glibc rejects a
dotted token anywhere else, since the embedded `inet_pton(AF_INET)` parse
must reach the end of the string. -/
def wordsOfToks : List (List Char) → Bool → Option (List Nat)
  | [], _ => some []
  | [t], embOk =>
    if embOk && t.contains '.' then (pton4 t).map (fun v => [v / 65536, v % 65536])
    else (parseHexTok t).map (fun w => [w])
  | t :: t' :: ts, embOk => do
    let w ← parseHexTok t
    let rest ← wordsOfToks (t' :: ts) embOk
    pure (w :: rest)

/-- Model of glibc `inet_pton(AF_INET6)` combined with the
`struct.unpack("!QQ", binary)` step of `IPAddr.__init`: at most one `"::"`
marker; with a marker at most 7 words may be present (at least one zero word
is inserted), without one exactly 8 are required; tokens left of the marker
can never be an encapsulated quad (they are followed by `"::"`). -/
def pton6 (s : List Char) : Option Nat :=
  if s.isEmpty then none else
  match findSplit2 s with
  | some (l, r) =>
    if (findSplit2 r).isSome then none
    else do
      let lt ← tokensOf l
      let rt ← tokensOf r
      let lw ← wordsOfToks lt false
      let rw ← wordsOfToks rt true
      if lw.length + rw.length ≤ 7 then
        pure (ofWords16 (lw ++ List.replicate (8 - (lw.length + rw.length)) 0 ++ rw))
      else none
  | none => do
    let ts ← tokensOf s
    let ws ← wordsOfToks ts true
    if ws.length = 8 then pure (ofWords16 ws) else none

/-! ### The source regular expressions

`IPAddr.IP_4_RE` is `(?:\d{1,3}\.){3}\d{1,3}`; anchored at both ends this
matches exactly the strings made of four runs of 1–3 decimal digits
separated by `'.'`, which is what `ip4REmatch` decides.

`IPAddr.IP_6_RE` is
`(?:[0-9a-fA-F]{1,4}::?|:){1,7}(?:[0-9a-fA-F]{1,4}|(?<=:):)`; `m6go` is a
backtracking matcher for it (anchored at both ends).  Each repetition of the
group consumes `g:`, `g::` (`g` a run of 1–4 hex digits) or `:`; since every
alternative ends in `':'`, the look-behind of the final `(?<=:):` branch is
satisfied exactly when at least one repetition was consumed, which the
`started` flag tracks.  The fuel only serves structural termination; it is
sufficient whenever it exceeds the string length. -/

/-- One `\d{1,3}` piece of `IP_4_RE`. -/
def ip4Part (t : List Char) : Bool := !t.isEmpty && t.length ≤ 3 && t.all isDigitC

/-- Anchored matcher for `IP_4_RE`: exactly four dot-separated runs of one
to three decimal digits. -/
def ip4REmatch (s : List Char) : Bool :=
  (splitOnC '.' s).length = 4 && (splitOnC '.' s).all ip4Part

/-- Acceptance of the final group `(?:[0-9a-fA-F]{1,4}|(?<=:):)` on the
remaining characters, `started` telling whether a repetition (necessarily
ending in `':'`) was already consumed. -/
def m6tailOk (s : List Char) (started : Bool) : Bool :=
  (!s.isEmpty && s.length ≤ 4 && s.all isHexD) || (s = [':'] && started)

/-- One hex-run step: if the first `k` characters are hex digits followed by
`':'`, the remainder after `g:` (which may itself start with the second
colon of `g::`). -/
def m6hexStep (s : List Char) (k : Nat) : Option (List Char) :=
  if k ≤ s.length ∧ (s.take k).all isHexD = true ∧ (s.drop k).head? = some ':' then
    some (s.drop (k+1))
  else none

/-- Backtracking matcher for the anchored `IP_6_RE`, with `rem` repetitions
of the first group still allowed: try the final group (after at least one
repetition), the `:` alternative, and the `[0-9a-fA-F]{1,4}::?`
alternatives (consuming `g:` and optionally the second colon). -/
def m6go : Nat → List Char → Nat → Bool → Bool
  | 0, _, _, _ => false
  | fuel+1, s, rem, started =>
    (started && m6tailOk s started) ||
    (0 < rem &&
      ((s.head? = some ':' && m6go fuel s.tail (rem-1) true) ||
       ([1, 2, 3, 4].any (fun k =>
         match m6hexStep s k with
         | none => false
         | some rest =>
           m6go fuel rest (rem-1) true ||
           (rest.head? = some ':' && m6go fuel rest.tail (rem-1) true)))))

/-- Anchored matcher for `IP_6_RE`. -/
def ip6REmatch (s : List Char) : Bool := m6go (s.length + 1) s 7 false

/-! ### IPAddr (ban/server/ipdns.py)

The record mirrors the `__slots__` of `IPAddr` (`_maskplen` is a memo of a
pure function and is not modelled).  `family` holds the numeric value used
by the source: `socket.AF_UNSPEC = 0`, `socket.AF_INET = 2`,
`socket.AF_INET6 = 10` (Linux), or `IPAddr.CIDR_RAW = -2` for raw
instances.  The object cache `CACHE_OBJ` only shares structurally equal
instances and is dropped from the model. -/

structure IPAddr where
  family : Int
  addr : Nat
  plen : Int
  raw : List Char
deriving DecidableEq, Repr

/-- Failure escaping `IPAddr` construction: the `ValueError("invalid mask
%r, no plen representation")` raised by `IPAddr.maskplen`. -/
inductive IPErr where
  | invalidMask : List Char → IPErr
deriving DecidableEq, Repr

/-- Python `~(0xFFFFFFFF >> p)` used as an and-mask on a value below `2^32`:
the high `p` bits of the 32-bit word. -/
def mask4n (p : Nat) : Nat := 0xFFFFFFFF ^^^ (0xFFFFFFFF >>> p)

/-- Python `~(0xFFFFFFFFFFFFFFFFFFFFFFFFFFFFFFFF >> p)` used as an and-mask
on a value below `2^128`. -/
def mask6n (p : Nat) : Nat :=
  0xFFFFFFFFFFFFFFFFFFFFFFFFFFFFFFFF ^^^ (0xFFFFFFFFFFFFFFFFFFFFFFFFFFFFFFFF >>> p)

/-- Lookup in `IPAddr.MAP_ADDR2MASKPLEN`: that precomputed dictionary maps
exactly the contiguous IPv4 masks `mask4n p` (`p ≤ 32`) and IPv6 masks
`mask6n p` (`p ≤ 128`) to their prefix length, `0` mapping to `0`. -/
def maskplenOf (addr : Nat) : Option Nat :=
  match (List.range 33).find? (fun p => addr = mask4n p) with
  | some p => some p
  | none => (List.range 129).find? (fun p => addr = mask6n p)

/-- Model of `IPAddr.__init(ipstr, cidr)`.  The family candidates are tried
in order (`AF_INET` then `AF_INET6`, or the single family encoded by a
`cidr < CIDR_RAW`); an IPv6 address parsed without an explicit prefix that
lies in `::ffff:0:0/96` (`IPAddr.IP6_4COMPAT`, via `self.isInNet`) is
converted to IPv4. -/
def initIP (s : List Char) (cidr : Int) : IPAddr :=
  if cidr = -2 then { family := -2, addr := 0, plen := 0, raw := s }
  else
    match (if cidr < -2 then (if (-2) - cidr = 2 then pton4 s else none)
           else pton4 s) with
    | some a =>
      if 0 ≤ cidr then { family := 2, addr := a &&& mask4n cidr.toNat, plen := cidr, raw := s }
      else { family := 2, addr := a, plen := 32, raw := s }
    | none =>
      match (if cidr < -2 then (if (-2) - cidr = 10 then pton6 s else none)
             else pton6 s) with
      | some a =>
        if 0 ≤ cidr then { family := 10, addr := a &&& mask6n cidr.toNat, plen := cidr, raw := s }
        else if a &&& mask6n 96 = 0xFFFF00000000 then
          { family := 2, addr := a &&& 0xFFFFFFFF, plen := 32, raw := s }
        else { family := 10, addr := a, plen := 128, raw := s }
      | none => { family := 0, addr := 0, plen := 0, raw := s }

/-- Model of the static `IPAddr.masktoplen(mask)`: construct `IPAddr(mask)`
(the mask string, produced by a CIDR-regex group, never contains `'/'` or
brackets, so this is `__init` with `CIDR_UNSPEC`) and read its `maskplen`
property, which raises — modelled as `Except.error` — when the address is
not a contiguous mask. -/
def masktoplen (m : List Char) : Except IPErr Int :=
  match maskplenOf (initIP m (-1)).addr with
  | some p => .ok (p : Int)
  | none => .error (.invalidMask m)

/-- Model of the static `IPAddr.__wrap_ipstr(ipstr)` as called from
`__new__` with `cidr = CIDR_UNSPEC`: strip one pair of enclosing brackets,
then split on the CIDR regex `^(ip4|ip6)/(?:(\d+)|(ip4|ip6))$` — a dotted
or IPv6-style mask on the right is converted through `masktoplen`, whose
`ValueError` propagates out of construction. -/
def wrapCore (s : List Char) : Except IPErr (List Char × Int) :=
  if !s.contains '/' then .ok (s, -1)
  else
    match splitOnC '/' s with
    | [l, r] =>
      if ip4REmatch l || ip6REmatch l then
        if !r.isEmpty && r.all isDigitC then .ok (l, (decVal r : Int))
        else if ip4REmatch r || ip6REmatch r then
          match masktoplen r with
          | .ok p => .ok (l, p)
          | .error e => .error e
        else .ok (s, -1)
      else .ok (s, -1)
    | _ => .ok (s, -1)

def wrapIpstr (s0 : List Char) : Except IPErr (List Char × Int) :=
  wrapCore (if 2 < s0.length && s0.head? = some '[' && s0.getLast? = some ']'
            then (s0.drop 1).dropLast else s0)

/-- Model of `IPAddr(ipstr)` (that is, `__new__` with the default
`cidr = CIDR_UNSPEC`): wrap the string, then initialize. -/
def mkIPAddrE (s : List Char) : Except IPErr IPAddr :=
  match wrapIpstr s with
  | .ok (s', cidr) => .ok (initIP s' cidr)
  | .error e => .error e

/-- Model of the `IPAddr.isValid` property
(`self._family != socket.AF_UNSPEC`). -/
def isValidIP (v : IPAddr) : Bool := v.family != 0

/-- Model of the `IPAddr.ntoa` property: `inet_ntop` output, with `/plen`
appended when `self._plen` is truthy and below the family width; non-IP
instances return the raw string. -/
def ntoa (v : IPAddr) : List Char :=
  if v.family = 2 then
    ntop4 v.addr ++ (if v.plen ≠ 0 ∧ v.plen < 32 then '/' :: decChars v.plen.toNat else [])
  else if v.family = 10 then
    ntop6 v.addr ++ (if v.plen ≠ 0 ∧ v.plen < 128 then '/' :: decChars v.plen.toNat else [])
  else v.raw

/-- Model of `IPAddr.__eq__` between two `IPAddr` instances (the branches
for non-`IPAddr` operands do not apply): families must agree, unspecified
instances compare by raw string, valid ones by `(addr, plen)`. -/
def eqIP (a b : IPAddr) : Bool :=
  if a.family != b.family then false
  else if a.family = 0 then a.raw = b.raw
  else a.addr = b.addr && a.plen = b.plen

/-- Model of `IPAddr.__lt__` between two `IPAddr` instances:
`self._family < other._family or self._addr < other._addr`. -/
def ltIP (a b : IPAddr) : Bool :=
  decide (a.family < b.family) || decide (a.addr < b.addr)

/-- Model of `IPAddr.isInNet(net)` for an `IPAddr` argument (the
`IPAddrSet` branch does not apply).  An invalid net with a non-empty raw
string triggers DNS resolution, abstracted by the oracle `dns`; set
membership `self in dnsToIp(...)` uses `__eq__`.  A negative `net.plen`
would raise in Python; constructed instances always have a non-negative
prefix length, and `Int.toNat` is only evaluated there. -/
def isInNet (dns : List Char → List IPAddr) (a net : IPAddr) : Bool :=
  if !isValidIP net && net.raw != ([] : List Char) then (dns net.raw).any (fun x => eqIP a x)
  else if a.family != net.family then false
  else if a.family = 2 then a.addr &&& mask4n net.plen.toNat = net.addr
  else if a.family = 10 then a.addr &&& mask6n net.plen.toNat = net.addr
  else false

/-- Model of `IPAddr.contains(ip)` for an `IPAddr` argument:
`ip == self or ip.isInNet(self)`. -/
def containsIP (dns : List Char → List IPAddr) (net ip : IPAddr) : Bool :=
  eqIP ip net || isInNet dns ip net

/-- Model of the static `IPAddr.searchIP(text)`: `re.match` of
`IP_4_6_CRE = ^(?:(?P<IPv4>IP_4_RE)|\[?(?P<IPv6>IP_6_RE)\]?)$` returning
the matched group.  The IPv4 branch is tried first; in the IPv6 branch the
optional brackets are forced exactly when present, since neither bracket
can occur inside `IP_6_RE`. -/
def searchIP (s : List Char) : Option (List Char) :=
  if ip4REmatch s then some s
  else
    let s1 := if s.head? = some '[' then s.tail else s
    let s2 := if s1.getLast? = some ']' then s1.dropLast else s1
    if ip6REmatch s2 then some s2 else none

/-- Model of `DNSUtils.textToIp(text, useDns)`.  DNS resolution
(`DNSUtils.dnsToIp`, which returns only valid addresses) is abstracted by
the oracle `dns`; sets are modelled as lists.  The `IPAddr(plainIP)`
construction inside cannot in fact raise (a `searchIP` result never
contains `'/'`), but the `Except` is propagated faithfully. -/
def textToIp (dns : List Char → List IPAddr) (text : List Char) (useDns : String) :
    Except IPErr (List IPAddr) := do
  let ipList ← match searchIP text with
    | some plainIP => do
      let ip ← mkIPAddrE plainIP
      pure (if isValidIP ip then [ip] else ([] : List IPAddr))
    | none => pure ([] : List IPAddr)
  if (useDns = "yes" || useDns = "warn") && ipList.isEmpty then pure (dns text)
  else pure ipList

deriving instance DecidableEq for Except

/-! ## Theorems

Helper lemmas come first, then for each claim its theorem (with the claim id
in the doc comment), and where applicable its witness or counterexample. -/

/-! ### Helper lemmas for the data dictionary -/

theorem dictSet_noneFree {α : Type} (d : List (String × Option α)) (k : String)
    (v : Option α) (hd : ∀ kv ∈ d, kv.2 ≠ none) (hv : v ≠ none) :
    ∀ kv ∈ dictSet d k v, kv.2 ≠ none := by
  induction d with
  | nil => simpa [dictSet] using hv
  | cons hd' tl ih =>
    intro kv hkv
    simp only [dictSet] at hkv
    by_cases h : hd'.1 = k
    · simp only [h, if_pos rfl] at hkv
      rcases List.mem_cons.1 hkv with h1 | h1
      · subst h1; exact hv
      · exact hd _ (List.mem_cons_of_mem _ h1)
    · simp only [if_neg h] at hkv
      rcases List.mem_cons.1 hkv with h1 | h1
      · subst h1; exact hd _ (List.mem_cons_self _ _)
      · exact ih (fun kv h => hd _ (List.mem_cons_of_mem _ h)) _ h1

theorem foldl_dictSet_noneFree {α : Type} (entries : List (String × Option α))
    (init : List (String × Option α)) (hinit : ∀ kv ∈ init, kv.2 ≠ none)
    (hentries : ∀ kv ∈ entries, kv.2 ≠ none) :
    ∀ kv ∈ entries.foldl (fun acc kv => dictSet acc kv.1 kv.2) init, kv.2 ≠ none := by
  induction entries generalizing init with
  | nil => simpa using hinit
  | cons e tl ih =>
    simp only [List.foldl_cons]
    exact ih _ (dictSet_noneFree _ _ _ hinit (hentries e (List.mem_cons_self _ _)))
      (fun kv h => hentries _ (List.mem_cons_of_mem _ h))

theorem dictDropNone_noneFree {α : Type} (d : List (String × Option α)) :
    ∀ kv ∈ dictDropNone d, kv.2 ≠ none := by
  intro kv hkv
  have h := (List.mem_filter.1 hkv).2
  intro hn
  rw [hn] at h
  simp at h

/-! ### Claim C1 -/

/-- Claim C1: for a ticket whose effective ban time (its own `banTime`, or
`defaultBT` when that is `None`) resolves to `T`: if `T ≥ 0` then
`isTimedOut(t)` is true exactly when `t > time + T` and `getEndOfBanTime`
returns `time + T`; if `T = -1` the ticket is permanent, `isTimedOut` is
false for every `t` and `getEndOfBanTime` returns the `MAX_TIME`
sentinel. -/
theorem claim1_ban_expiry (tk : Ticket) (dBT : Option Rat) (T now : Rat)
    (h : tk.getBanTime dBT = some T) :
    (0 ≤ T →
      tk.isTimedOut now dBT = some (decide (now > tk.time + T)) ∧
      tk.getEndOfBanTime dBT = some (tk.time + T)) ∧
    (T = -1 →
      tk.isTimedOut now dBT = some false ∧
      tk.getEndOfBanTime dBT = some Ticket.MAX_TIME) := by
  unfold Ticket.isTimedOut Ticket.getEndOfBanTime
  rw [h]
  constructor
  · intro hT
    have hne : ¬ (T = -1) := by intro e; rw [e] at hT; norm_num at hT
    simp [hne]
  · intro hT
    simp [hT]

/-- Witness for C1 at a concrete ticket: `banTime = 10`, `time = 0`,
queried at `now = 11` (timed out) and with `banTime = -1` below. -/
theorem claim1_ban_expiry_witness :
    Ticket.isTimedOut ⟨0, some 10, 0⟩ 11 none = some (decide ((11:Rat) > 0 + 10)) ∧
    Ticket.getEndOfBanTime ⟨0, some 10, 0⟩ none = some ((0:Rat) + 10) :=
  (claim1_ban_expiry ⟨0, some 10, 0⟩ none 10 11 rfl).1 (by norm_num)

/-! ### Claim C7 -/

/-- Claim C7: `setBanCount(v, always=False)` sets the ban count to the
maximum of the previous count and `v`; in particular it never decreases. -/
theorem claim7_setBanCount_max (t : Ticket) (v : Int) :
    (t.setBanCount v false).banCount = max t.banCount v ∧
    t.banCount ≤ (t.setBanCount v false).banCount := by
  unfold Ticket.setBanCount
  by_cases h : v > t.banCount
  · rw [if_pos (Or.inr h)]
    constructor
    · show v = max t.banCount v
      omega
    · show t.banCount ≤ v
      omega
  · rw [if_neg (by simpa using h)]
    constructor
    · show t.banCount = max t.banCount v
      omega
    · omega

/-! ### Claim C9 -/

/-- Claim C9: `adjustTime(t, maxTime)` with `t` above the current last time
sets the last time to `t` and re-establishes `firstTime ≥ t − maxTime`,
rescaling `retry` to `round(retry * maxTime / (t − firstTime))` (Python 3
`round`, ties to even, modelled by `pyRound`) exactly when the old interval
exceeded `maxTime`; with `t` not above the current last time the ticket is
unchanged. -/
theorem claim9_adjustTime (t : FailTicket) (tm maxT : Rat) :
    (tm > t.time →
      (t.adjustTime tm maxT).time = tm ∧
      tm - maxT ≤ (t.adjustTime tm maxT).firstTime ∧
      (tm - t.firstTime > maxT →
        (t.adjustTime tm maxT).retry = pyRound ((t.retry : Rat) * maxT / (tm - t.firstTime)) ∧
        (t.adjustTime tm maxT).firstTime = tm - maxT) ∧
      (tm - t.firstTime ≤ maxT →
        t.adjustTime tm maxT = { t with time := tm })) ∧
    (tm ≤ t.time → t.adjustTime tm maxT = t) := by
  unfold FailTicket.adjustTime
  constructor
  · intro hgt
    rw [if_pos hgt]
    by_cases hrate : t.firstTime < tm - maxT
    · rw [if_pos hrate]
      refine ⟨rfl, by show tm - maxT ≤ tm - maxT; linarith, ?_, ?_⟩
      · intro _
        constructor
        · show pyRound ((t.retry : Rat) / (tm - t.firstTime) * maxT) = _
          congr 1
          ring
        · rfl
      · intro hle; exfalso; linarith
    · rw [if_neg hrate]
      push_neg at hrate
      refine ⟨rfl, by show tm - maxT ≤ t.firstTime; linarith, ?_, fun _ => rfl⟩
      intro hc; exfalso; linarith
  · intro hle
    rw [if_neg (by linarith)]

/-- Witness for C9: ticket at `time = 10`, `firstTime = 0`, `retry = 6`,
adjusted to `tm = 12` with `maxTime = 4`: the interval `12` exceeds `4`, so
`retry` becomes `round(6 * 4 / 12) = 2` and `firstTime` becomes `8`. -/
theorem claim9_adjustTime_witness :
    (FailTicket.adjustTime ⟨10, 0, 6⟩ 12 4).time = 12 ∧
    (FailTicket.adjustTime ⟨10, 0, 6⟩ 12 4).retry =
      pyRound (((6:Int) : Rat) * 4 / (12 - 0)) ∧
    (FailTicket.adjustTime ⟨10, 0, 6⟩ 12 4).firstTime = 12 - 4 := by
  have h := claim9_adjustTime ⟨10, 0, 6⟩ 12 4
  have h1 := h.1 (by norm_num)
  exact ⟨h1.1, (h1.2.2.1 (by norm_num)).1, (h1.2.2.1 (by norm_num)).2⟩

/-! ### Claim C10 -/

/-- Claim C10: after construction (the `ticket=None` path of
`Ticket.__init__`) and after any call to `setData`, the ticket's data
mapping contains no key bound to `None`: `None`-valued entries passed in are
dropped, and the final filtering pass removes entries set to `None`. -/
theorem claim10_data_none_free {α : Type} (mv fv : α)
    (dat : Option (List (String × Option α))) (d : List (String × Option α))
    (args : SetDataArgs α) (argv : List (String × Option α)) :
    (∀ kv ∈ Ticket.mkData mv fv dat, kv.2 ≠ none) ∧
    (∀ kv ∈ Ticket.setData d args argv, kv.2 ≠ none) := by
  constructor
  · unfold Ticket.mkData
    match dat with
    | none =>
      intro kv hkv
      simp only [List.mem_cons, List.not_mem_nil, or_false] at hkv
      rcases hkv with h | h <;> subst h <;> simp
    | some dd =>
      exact foldl_dictSet_noneFree _ _
        (by
          intro kv hkv
          simp only [List.mem_cons, List.not_mem_nil, or_false] at hkv
          rcases hkv with h | h <;> subst h <;> simp)
        (dictDropNone_noneFree dd)
  · unfold Ticket.setData
    exact dictDropNone_noneFree _

/-! ### Claim C8 -/

theorem jt_run_after_replaced (evs : List JTEvent) (st : JTState)
    (h : st.realOnStop = false) :
    (st.run evs).runs = st.runs ∧ (st.run evs).realOnStop = false ∧
    (st.run evs).active = (if JTEvent.stop ∈ evs then false else st.active) := by
  induction evs generalizing st with
  | nil => simpa [JTState.run] using h
  | cons e tl ih =>
    have hstep : (st.step e).realOnStop = false ∧ (st.step e).runs = st.runs ∧
        (st.step e).active = (if e = JTEvent.stop then false else st.active) := by
      cases e <;> simp [JTState.step, h]
    have := ih (st.step e) hstep.1
    refine ⟨?_, ?_, ?_⟩
    · show (JTState.run (st.step e) tl).runs = st.runs
      rw [this.1, hstep.2.1]
    · exact this.2.1
    · show (JTState.run (st.step e) tl).active = _
      rw [this.2.2, hstep.2.2]
      by_cases he : e = JTEvent.stop
      · subst he; simp
      · cases e
        · simp at he
        · simp only [List.mem_cons]
          have : (JTEvent.workerEnd = JTEvent.stop) = False := by simp
          simp [he]

/-- Counterexample to C8 as stated: if the worker's end-of-run callback
fires before any `stop()` call (the thread finishes on its own, then
`stop()` is invoked), the real `onStop` cleanup body runs twice — the
worker-end call does not replace `onStop` with the no-op, only `stop()`
does.  The claim asserts exactly one execution for every sequence. -/
theorem claim8_counterexample :
    (JTState.started.run [JTEvent.workerEnd, JTEvent.stop]).runs = 2 ∧
    ¬ ((JTState.started.run [JTEvent.workerEnd, JTEvent.stop]).runs = 1) := by
  constructor <;> decide

/-- Claim C8 amended: in any sequence of `stop()` calls and the worker's
end-of-run callback in which the worker callback never precedes the first
`stop()`, the `onStop` cleanup body executes exactly once and `active` ends
up false; in particular repeated `stop()` calls are idempotent (the first
`stop()` replaces `onStop` with a no-op).  If the worker callback fires
before the first `stop()`, a later `stop()` runs the cleanup a second
time. -/
theorem claim8_amended_stop_once (evs : List JTEvent)
    (hstop : JTEvent.stop ∈ evs)
    (hw : JTEvent.earlyWorkerEnds evs = 0) :
    (JTState.started.run evs).runs = 1 ∧
    (JTState.started.run evs).active = false := by
  induction evs with
  | nil => simp at hstop
  | cons e tl ih =>
    cases e with
    | stop =>
      have hstep : (JTState.started.step JTEvent.stop) =
          { active := false, realOnStop := false, runs := 1 } := by
        simp [JTState.step, JTState.started]
      have h := jt_run_after_replaced tl
        { active := false, realOnStop := false, runs := 1 } rfl
      refine ⟨?_, ?_⟩
      · show (JTState.run (JTState.started.step JTEvent.stop) tl).runs = 1
        rw [hstep, h.1]
      · show (JTState.run (JTState.started.step JTEvent.stop) tl).active = false
        rw [hstep, h.2.2]
        by_cases hm : JTEvent.stop ∈ tl <;> simp [hm]
    | workerEnd =>
      exfalso
      simp [JTEvent.earlyWorkerEnds] at hw

/-- Witness for the amended C8: `stop(); stop()` followed by the worker's
own end-of-run callback still runs the cleanup exactly once. -/
theorem claim8_amended_stop_once_witness :
    (JTState.started.run [JTEvent.stop, JTEvent.stop, JTEvent.workerEnd]).runs = 1 ∧
    (JTState.started.run [JTEvent.stop, JTEvent.stop, JTEvent.workerEnd]).active = false :=
  claim8_amended_stop_once [JTEvent.stop, JTEvent.stop, JTEvent.workerEnd]
    (by decide) (by decide)

/-! ### Helper lemmas about splitting, joining and the matchers -/

theorem splitOnC_ne_nil (sep : Char) (s : List Char) : splitOnC sep s ≠ [] := by
  cases s with
  | nil => simp [splitOnC]
  | cons a rest =>
    simp only [splitOnC]
    cases h : splitOnC sep rest with
    | nil => simp
    | cons t ts => by_cases ha : a = sep <;> simp [ha]

theorem joinSep_splitOnC (sep : Char) (s : List Char) :
    joinSep sep (splitOnC sep s) = s := by
  induction s with
  | nil => simp [splitOnC, joinSep]
  | cons a rest ih =>
    cases h : splitOnC sep rest with
    | nil => exact absurd h (splitOnC_ne_nil sep rest)
    | cons t ts =>
      rw [h] at ih
      simp only [splitOnC, h]
      by_cases ha : a = sep
      · subst ha
        simp only [if_pos rfl, joinSep]
        cases ts <;> simp_all [joinSep]
      · rw [if_neg ha]
        cases ts with
        | nil => simp_all [joinSep]
        | cons t2 ts2 =>
          simp only [joinSep] at ih ⊢
          rw [← ih]
          simp

theorem tail_drop_succ (s : List Char) (k : Nat) : (s.drop k).tail = s.drop (k+1) := by
  induction s generalizing k with
  | nil => simp
  | cons a rest ih =>
    cases k with
    | zero => simp
    | succ j => simpa using ih j

theorem m6go_chars (fuel : Nat) (s : List Char) (rem : Nat) (started : Bool)
    (h : m6go fuel s rem started = true) :
    ∀ c ∈ s, isHexD c = true ∨ c = ':' := by
  induction fuel generalizing s rem started with
  | zero => simp [m6go] at h
  | succ n ih =>
    simp only [m6go, Bool.or_eq_true, Bool.and_eq_true, decide_eq_true_eq,
      List.any_eq_true] at h
    rcases h with ⟨_, htail⟩ | ⟨_, h⟩
    · unfold m6tailOk at htail
      simp only [Bool.or_eq_true, Bool.and_eq_true, decide_eq_true_eq] at htail
      rcases htail with ⟨⟨_, _⟩, hall⟩ | ⟨hs, _⟩
      · intro c hc
        exact Or.inl ((List.all_eq_true.1 hall) c hc)
      · intro c hc
        rw [hs] at hc
        simp only [List.mem_singleton] at hc
        exact Or.inr hc
    · rcases h with ⟨hcolon, hrec⟩ | ⟨k, _, hk⟩
      · cases s with
        | nil => simp at hcolon
        | cons c0 rest =>
          have hc0 : c0 = ':' := by simpa using hcolon
          intro c hc
          rcases List.mem_cons.1 hc with h1 | h1
          · exact Or.inr (h1.trans hc0)
          · exact ih rest _ _ hrec c h1
      · cases hstep : m6hexStep s k with
        | none => rw [hstep] at hk; simp at hk
        | some rest =>
          rw [hstep] at hk
          unfold m6hexStep at hstep
          by_cases hcond : k ≤ s.length ∧ (s.take k).all isHexD = true ∧
              (s.drop k).head? = some ':'
          · rw [if_pos hcond] at hstep
            have hrest : rest = s.drop (k+1) := by
              injection hstep with h'
              exact h'.symm
            have hdropform : s.drop k = ':' :: rest := by
              cases hd : s.drop k with
              | nil => rw [hd] at hcond; simp at hcond
              | cons x xs =>
                have hx : x = ':' := by
                  have := hcond.2.2
                  rw [hd] at this
                  simpa using this
                have hxs : xs = rest := by
                  have ht := tail_drop_succ s k
                  rw [hd] at ht
                  simp only [List.tail_cons] at ht
                  rw [hrest, ← ht]
                rw [hx, hxs]
            have hcs : ∀ c ∈ rest, isHexD c = true ∨ c = ':' := by
              simp only [Bool.or_eq_true, Bool.and_eq_true, decide_eq_true_eq] at hk
              rcases hk with hk | ⟨hh, hk⟩
              · exact ih _ _ _ hk
              · intro c hc
                cases rest with
                | nil => simp at hh
                | cons y ys =>
                  have hy : y = ':' := by simpa using hh
                  rcases List.mem_cons.1 hc with h1 | h1
                  · exact Or.inr (h1.trans hy)
                  · exact ih ys _ _ hk c h1
            intro c hc
            rw [← List.take_append_drop k s] at hc
            rcases List.mem_append.1 hc with h1 | h1
            · exact Or.inl ((List.all_eq_true.1 hcond.2.1) c h1)
            · rw [hdropform] at h1
              rcases List.mem_cons.1 h1 with h2 | h2
              · exact Or.inr h2
              · exact hcs c h2
          · rw [if_neg hcond] at hstep
            exact absurd hstep (by simp)

theorem joinSep_chars (sep : Char) (p : Char → Bool) (ts : List (List Char))
    (hts : ∀ t ∈ ts, ∀ c ∈ t, p c = true) :
    ∀ c ∈ joinSep sep ts, p c = true ∨ c = sep := by
  induction ts with
  | nil => simp [joinSep]
  | cons t rest ih =>
    cases rest with
    | nil =>
      intro c hc
      simp only [joinSep] at hc
      exact Or.inl (hts t (by simp) c hc)
    | cons t2 ts2 =>
      intro c hc
      simp only [joinSep] at hc
      rcases List.mem_append.1 hc with h1 | h1
      · exact Or.inl (hts t (by simp) c h1)
      · rcases List.mem_cons.1 h1 with h2 | h2
        · exact Or.inr h2
        · exact ih (fun u hu c' hc' => hts u (List.mem_cons_of_mem _ hu) c' hc') c h2

theorem ip4REmatch_chars (s : List Char) (h : ip4REmatch s = true) :
    ∀ c ∈ s, isDigitC c = true ∨ c = '.' := by
  unfold ip4REmatch at h
  simp only [Bool.and_eq_true, decide_eq_true_eq, List.all_eq_true] at h
  intro c hc
  rw [← joinSep_splitOnC '.' s] at hc
  refine joinSep_chars '.' isDigitC _ ?_ c hc
  intro t ht c' hc'
  have := h.2 t ht
  unfold ip4Part at this
  simp only [Bool.and_eq_true, List.all_eq_true] at this
  exact this.2 c' hc'

theorem searchIP_chars (s p : List Char) (h : searchIP s = some p) :
    ∀ c ∈ p, c ≠ '/' ∧ c ≠ '[' := by
  unfold searchIP at h
  by_cases h4 : ip4REmatch s = true
  · rw [if_pos h4] at h
    injection h with h'
    subst h'
    intro c hc
    rcases ip4REmatch_chars s h4 c hc with h1 | h1
    · constructor <;> intro e <;> subst e <;> simp [isDigitC] at h1
    · subst h1
      constructor <;> intro e <;> cases e
  · rw [if_neg h4] at h
    by_cases h6 : ip6REmatch (if (if s.head? = some '[' then s.tail else s).getLast? =
        some ']' then (if s.head? = some '[' then s.tail else s).dropLast
        else (if s.head? = some '[' then s.tail else s)) = true
    · rw [if_pos h6] at h
      injection h with h'
      subst h'
      intro c hc
      rcases m6go_chars _ _ _ _ h6 c hc with h1 | h1
      · constructor <;> intro e <;> subst e <;> simp [isHexD, isDigitC] at h1
      · subst h1
        constructor <;> intro e <;> cases e
    · rw [if_neg h6] at h
      cases h

theorem searchIP_construct (s p : List Char) (h : searchIP s = some p) :
    mkIPAddrE p = .ok (initIP p (-1)) := by
  have hchars := searchIP_chars s p h
  have hbr : (p.head? = some '[') = False := by
    simp only [eq_iff_iff, iff_false]
    intro hh
    cases p with
    | nil => cases hh
    | cons c0 rest =>
      have : c0 = '[' := by simpa using hh
      exact (hchars c0 (by simp)).2 this
  have hsl : p.contains '/' = false := by
    by_cases hc : p.contains '/' = true
    · exfalso
      have : '/' ∈ p := by
        simpa [List.contains] using hc
      exact (hchars '/' this).1 rfl
    · simpa using hc
  unfold mkIPAddrE wrapIpstr wrapCore
  simp only [hbr, decide_False, Bool.and_false, Bool.false_and, Bool.false_eq_true,
    if_false, hsl, Bool.not_false, if_true]

/-! ### Claim C6 -/

/-- Counterexample to C6 as stated: `searchIP` anchors `IP_4_6_CRE` at both
ends of the text, so a literal IP merely occurring inside a longer text is
not found: for the text `"x 1.2.3.4"` with `useDns = "no"` the result is the
empty set, not the set containing `1.2.3.4`. -/
theorem claim6_counterexample :
    textToIp (fun _ => []) "x 1.2.3.4".data "no" = .ok [] ∧
    isValidIP (initIP "1.2.3.4".data (-1)) = true ∧
    textToIp (fun _ => []) "x 1.2.3.4".data "no" ≠ .ok [initIP "1.2.3.4".data (-1)] := by
  refine ⟨by decide, by decide, by decide⟩

/-- Claim C6 amended: if the whole text (up to one pair of enclosing
brackets for IPv6) is a literal IP as decided by the anchored `IP_4_6_CRE`
and that literal parses to a valid address, `textToIp` returns exactly that
one address and the DNS oracle is never consulted; in every other case
(no literal found, or an invalid literal such as `999.1.1.1`) DNS resolution
of the text is attempted if and only if `useDns` is `yes` or `warn`. -/
theorem claim6_amended_textToIp (dns : List Char → List IPAddr) (text : List Char)
    (u : String) :
    (∀ p, searchIP text = some p →
      textToIp dns text u =
        .ok (if isValidIP (initIP p (-1)) = true then [initIP p (-1)]
             else if u = "yes" ∨ u = "warn" then dns text else []) ∧
      (isValidIP (initIP p (-1)) = true →
        ∀ dns2, textToIp dns2 text u = textToIp dns text u)) ∧
    (searchIP text = none →
      textToIp dns text u = .ok (if u = "yes" ∨ u = "warn" then dns text else [])) := by
  constructor
  · intro p hp
    have hmk := searchIP_construct text p hp
    have key : ∀ d : List Char → List IPAddr,
        textToIp d text u =
          .ok (if isValidIP (initIP p (-1)) = true then [initIP p (-1)]
               else if u = "yes" ∨ u = "warn" then d text else []) := by
      intro d
      unfold textToIp
      simp only [hp]
      rw [hmk]
      by_cases hv : isValidIP (initIP p (-1)) = true
      · simp [hv, Bind.bind, Except.bind, pure, Except.pure]
      · by_cases hu : u = "yes" ∨ u = "warn"
        · have hub : (u = "yes" || u = "warn") = true := by
            rcases hu with h | h <;> simp [h]
          simp [hv, hu, hub, Bind.bind, Except.bind, pure, Except.pure]
        · have hub : (u = "yes" || u = "warn") = false := by
            push_neg at hu
            simp [hu.1, hu.2]
          simp [hv, hu, hub, Bind.bind, Except.bind, pure, Except.pure]
    refine ⟨key dns, ?_⟩
    intro hv dns2
    rw [key dns, key dns2, hv]
    simp
  · intro hp
    unfold textToIp
    simp only [hp]
    by_cases hu : u = "yes" ∨ u = "warn"
    · have hub : (u = "yes" || u = "warn") = true := by
        rcases hu with h | h <;> simp [h]
      simp [hu, hub, Bind.bind, Except.bind, pure, Except.pure]
    · have hub : (u = "yes" || u = "warn") = false := by
        push_neg at hu
        simp [hu.1, hu.2]
      simp [hu, hub, Bind.bind, Except.bind, pure, Except.pure]

/-- Witness for the amended C6: the literal text `"1.2.3.4"` with
`useDns = "no"` yields exactly that address. -/
theorem claim6_amended_textToIp_witness :
    textToIp (fun _ => []) "1.2.3.4".data "no" =
      .ok (if isValidIP (initIP "1.2.3.4".data (-1)) = true then [initIP "1.2.3.4".data (-1)]
           else if ("no" : String) = "yes" ∨ ("no" : String) = "warn"
             then (fun _ => ([] : List IPAddr)) "1.2.3.4".data else []) :=
  ((claim6_amended_textToIp (fun _ => []) "1.2.3.4".data "no").1 "1.2.3.4".data
    (by decide)).1

/-! ### Claim C4 -/

theorem initIP_raw (s : List Char) (c : Int) : (initIP s c).raw = s := by
  unfold initIP
  repeat' split
  all_goals rfl

theorem initIP_family_cases (s : List Char) (c : Int) :
    (initIP s c).family = -2 ∨ (initIP s c).family = 2 ∨ (initIP s c).family = 10 ∨
    initIP s c = { family := 0, addr := 0, plen := 0, raw := s } := by
  unfold initIP
  repeat' split
  all_goals simp

theorem masktoplen_error (m : List Char) (e : IPErr) (h : masktoplen m = .error e) :
    e = .invalidMask m ∧ maskplenOf (initIP m (-1)).addr = none := by
  unfold masktoplen at h
  cases hm : maskplenOf (initIP m (-1)).addr with
  | some p => rw [hm] at h; cases h
  | none => rw [hm] at h; injection h with h'; exact ⟨h'.symm, rfl⟩

theorem wrapCore_error (s : List Char) (e : IPErr) (h : wrapCore s = .error e) :
    ∃ m, e = .invalidMask m ∧ maskplenOf (initIP m (-1)).addr = none := by
  unfold wrapCore at h
  split at h
  · cases h
  · split at h
    · split at h
      · split at h
        · cases h
        · split at h
          · split at h
            · cases h
            · rename_i e2 hme
              injection h with h'
              subst h'
              exact ⟨_, (masktoplen_error _ _ hme).1, (masktoplen_error _ _ hme).2⟩
          · cases h
      · cases h
    · cases h

theorem wrapIpstr_error (s : List Char) (e : IPErr) (h : wrapIpstr s = .error e) :
    ∃ m, e = .invalidMask m ∧ maskplenOf (initIP m (-1)).addr = none := by
  unfold wrapIpstr at h
  exact wrapCore_error _ e h

/-- Claim C4 amended: `IPAddr` construction raises only the `InvalidMask`
`ValueError` (exactly when a CIDR split produced a mask string whose parsed
address has no contiguous prefix representation); every other input yields
an instance, and when parsing fails that instance has family unspec
(`isValid` false) with zeroed address fields.  The raw string stored on
failure is the string after bracket-stripping and CIDR-splitting; it equals
the original input whenever that contains no `'/'` and does not start with
`'['`. -/
theorem claim4_amended_no_raise (s : List Char) :
    (∀ r, mkIPAddrE s = .ok r → isValidIP r = false →
      r.family = 0 ∧ r.addr = 0 ∧ r.plen = 0) ∧
    (s.contains '/' = false → s.head? ≠ some '[' →
      mkIPAddrE s = .ok (initIP s (-1)) ∧ ∀ r, mkIPAddrE s = .ok r → r.raw = s) ∧
    (∀ e, mkIPAddrE s = .error e →
      ∃ m, e = .invalidMask m ∧ maskplenOf (initIP m (-1)).addr = none) := by
  refine ⟨?_, ?_, ?_⟩
  · intro r hr hval
    unfold mkIPAddrE at hr
    cases hw : wrapIpstr s with
    | error e => rw [hw] at hr; cases hr
    | ok sc =>
      rw [hw] at hr
      injection hr with hr'
      have hfam : r.family = 0 := by
        unfold isValidIP at hval
        simpa using hval
      rcases initIP_family_cases sc.1 sc.2 with h0 | h0 | h0 | h0
      · rw [← hr'] at hfam; rw [hfam] at h0; cases h0
      · rw [← hr'] at hfam; rw [hfam] at h0; cases h0
      · rw [← hr'] at hfam; rw [hfam] at h0; cases h0
      · rw [← hr', h0]
        exact ⟨rfl, rfl, rfl⟩
  · intro hsl hbr
    have hbr' : (s.head? = some '[') = False := by
      simp only [eq_iff_iff, iff_false]
      exact hbr
    have hmk : mkIPAddrE s = .ok (initIP s (-1)) := by
      unfold mkIPAddrE wrapIpstr wrapCore
      simp only [hbr', decide_False, Bool.and_false, Bool.false_and,
        Bool.false_eq_true, if_false, hsl, Bool.not_false, if_true]
    refine ⟨hmk, ?_⟩
    intro r hr
    rw [hmk] at hr
    injection hr with hr'
    rw [← hr']
    exact initIP_raw s (-1)
  · intro e he
    unfold mkIPAddrE at he
    cases hw : wrapIpstr s with
    | error e2 =>
      rw [hw] at he
      injection he with h'
      subst h'
      exact wrapIpstr_error s _ hw
    | ok sc => rw [hw] at he; cases he

/-- Counterexample to C4 as stated: the original string is not always
preserved in `raw` on failure — `IPAddr("[zzz]")` strips the brackets
before parsing fails, so the instance stores `"zzz"`, not `"[zzz]"`.
(The contiguous-mask failure itself, `IPAddr("1.2.3.4/255.0.255.0")`,
is demonstrated to raise `InvalidMask` in the same statement.) -/
theorem claim4_counterexample :
    (mkIPAddrE "[zzz]".data).toOption.map IPAddr.raw = some "zzz".data ∧
    "zzz".data ≠ "[zzz]".data ∧
    mkIPAddrE "1.2.3.4/255.0.255.0".data = .error (.invalidMask "255.0.255.0".data) := by
  refine ⟨by decide, by decide, by decide⟩

/-- Witness for the amended C4 at the failing parse `"not.an.ip"`: no
exception, unspec family, raw preserved (no slash, no bracket). -/
theorem claim4_amended_no_raise_witness :
    mkIPAddrE "not.an.ip".data = .ok (initIP "not.an.ip".data (-1)) ∧
    (∀ r, mkIPAddrE "not.an.ip".data = .ok r → r.raw = "not.an.ip".data) :=
  (claim4_amended_no_raise "not.an.ip".data).2.1 (by decide) (by decide)

/-! ### Claim C5 -/

/-- Counterexample to C5 as stated: `__lt__` computes
`self._family < other._family or self._addr < other._addr` with no
family-equality guard, so `IPAddr("::1") < IPAddr("255.255.255.255")` is
true (`1 < 4294967295` on the addresses) although the lexicographic order on
`(family, addr)` puts the IPv6 address (family 10) after the IPv4 one
(family 2). -/
theorem claim5_counterexample :
    mkIPAddrE "::1".data = .ok ⟨10, 1, 128, "::1".data⟩ ∧
    mkIPAddrE "255.255.255.255".data = .ok ⟨2, 4294967295, 32, "255.255.255.255".data⟩ ∧
    ltIP ⟨10, 1, 128, "::1".data⟩ ⟨2, 4294967295, 32, "255.255.255.255".data⟩ = true ∧
    ¬ ((10:Int) < 2 ∨ ((10:Int) = 2 ∧ (1:Nat) < 4294967295)) := by
  refine ⟨by decide, by decide, by decide, by decide⟩

/-- Claim C5 amended: for valid addresses, `a < b` holds exactly when
`a.family < b.family` or `a.addr < b.addr` (a disjunction, not the
lexicographic order); restricted to a common family this is exactly the
comparison of the numeric addresses. -/
theorem claim5_amended_lt (a b : IPAddr)
    (ha : isValidIP a = true) (hb : isValidIP b = true) :
    (ltIP a b = true ↔ (a.family < b.family ∨ a.addr < b.addr)) ∧
    (a.family = b.family → (ltIP a b = true ↔ a.addr < b.addr)) := by
  constructor
  · simp [ltIP]
  · intro hfam
    simp [ltIP, hfam]

/-- Witness for the amended C5 on two concrete IPv4 addresses of the same
family. -/
theorem claim5_amended_lt_witness :
    (ltIP ⟨2, 5, 32, []⟩ ⟨2, 9, 32, []⟩ = true ↔ (5:Nat) < 9) :=
  (claim5_amended_lt ⟨2, 5, 32, []⟩ ⟨2, 9, 32, []⟩ (by decide) (by decide)).2 rfl

/-! ### Claim C2 -/

/-- Claim C2: for a valid address `a` and a valid subnet `s` (prefix length
below the family width, host bits zeroed — the construction invariant):
when the families agree, `s.contains(a)` holds iff
`(a.addr & mask(s.plen)) == s.addr`; when they differ it is false.  The DNS
oracle is irrelevant since `s` is valid. -/
theorem claim2_subnet_contains (dns : List Char → List IPAddr) (a s : IPAddr)
    (ha : isValidIP a = true) (hs : isValidIP s = true)
    (hfam : s.family = 2 ∨ s.family = 10)
    (hplen : 0 ≤ s.plen ∧ s.plen < (if s.family = 2 then 32 else 128))
    (hmask : s.addr &&& (if s.family = 2 then mask4n s.plen.toNat else mask6n s.plen.toNat)
      = s.addr) :
    (a.family = s.family →
      (containsIP dns s a = true ↔
        a.addr &&& (if s.family = 2 then mask4n s.plen.toNat else mask6n s.plen.toNat)
          = s.addr)) ∧
    (a.family ≠ s.family → containsIP dns s a = false) := by
  constructor
  · intro hf
    unfold containsIP isInNet eqIP
    rcases hfam with h2 | h2
    · rw [h2] at hf hmask ⊢
      rw [hf]
      simp only [hs]
      simp only [Bool.not_true, Bool.false_and, Bool.false_eq_true, if_false,
        bne_self_eq_false, if_true, if_pos rfl]
      simp
      intro he _
      rw [he]
      simpa using hmask
    · rw [h2] at hf hmask ⊢
      rw [hf]
      simp only [hs]
      simp only [Bool.not_true, Bool.false_and, Bool.false_eq_true, if_false,
        bne_self_eq_false, if_true, if_pos rfl]
      simp
      intro he _
      rw [he]
      simpa using hmask
  · intro hne
    unfold containsIP isInNet eqIP
    have hb : (a.family != s.family) = true := by
      simpa using hne
    simp only [hs, Bool.not_true, Bool.false_and, Bool.false_eq_true, if_false, hb,
      if_true, Bool.false_or]

/-- Witness for C2: the subnet `192.0.2.0/24` contains `192.0.2.17` and has
a family different from `::1`. -/
theorem claim2_subnet_contains_witness :
    (containsIP (fun _ => []) ⟨2, 0xC0000200, 24, []⟩ ⟨2, 0xC0000211, 32, []⟩ = true ↔
      (0xC0000211 : Nat) &&& (if (2:Int) = 2 then mask4n (24:Int).toNat
        else mask6n (24:Int).toNat) = 0xC0000200) ∧
    containsIP (fun _ => []) ⟨2, 0xC0000200, 24, []⟩ ⟨10, 1, 128, []⟩ = false := by
  constructor
  · exact (claim2_subnet_contains (fun _ => []) ⟨2, 0xC0000211, 32, []⟩ ⟨2, 0xC0000200, 24, []⟩
      (by decide) (by decide) (Or.inl rfl) (by decide) (by decide)).1 rfl
  · exact (claim2_subnet_contains (fun _ => []) ⟨10, 1, 128, []⟩ ⟨2, 0xC0000200, 24, []⟩
      (by decide) (by decide) (Or.inl rfl) (by decide) (by decide)).2 (by decide)

/-! ### Claim C3: digit-printing lemmas

`digitsAux` prints base-10/16 digit strings; these lemmas give the exact
value, character set, length and leading-zero facts needed to re-parse the
`inet_ntop` output. -/

theorem digitsAux_ne_nil (base fuel n : Nat) :
    digitsAux base (fuel+1) n ≠ [] := by
  unfold digitsAux
  split
  · simp
  · simp

theorem digitsAux_shape (base fuel n : Nat) (hb : 2 ≤ base) (hf : n < base ^ fuel) :
    ∀ c ∈ digitsAux base fuel n, ∃ d, d < base ∧ c = hexLowChar d := by
  induction fuel generalizing n with
  | zero =>
    simp only [pow_zero, Nat.lt_one_iff] at hf
    subst hf
    simp [digitsAux]
  | succ k ih =>
    unfold digitsAux
    by_cases hlt : n < base
    · rw [if_pos hlt]
      intro c hc
      simp only [List.mem_singleton] at hc
      exact ⟨n, hlt, hc⟩
    · rw [if_neg hlt]
      intro c hc
      rcases List.mem_append.1 hc with h1 | h1
      · refine ih (n / base) ?_ c h1
        rw [Nat.div_lt_iff_lt_mul (by omega)]
        calc n < base ^ (k+1) := hf
        _ = base ^ k * base := by ring
      · simp only [List.mem_singleton] at h1
        exact ⟨n % base, Nat.mod_lt _ (by omega), h1⟩

theorem digitsAux_val (base fuel n : Nat) (valC : Char → Nat) (hb : 2 ≤ base)
    (hv : ∀ d, d < base → valC (hexLowChar d) = d) (hf : n < base ^ fuel) :
    (digitsAux base fuel n).foldl (fun acc c => acc * base + valC c) 0 = n := by
  induction fuel generalizing n with
  | zero =>
    simp only [pow_zero, Nat.lt_one_iff] at hf
    subst hf
    simp [digitsAux]
  | succ k ih =>
    unfold digitsAux
    by_cases hlt : n < base
    · rw [if_pos hlt]
      simp [hv n hlt]
    · rw [if_neg hlt]
      rw [List.foldl_append]
      have hdiv : n / base < base ^ k := by
        rw [Nat.div_lt_iff_lt_mul (by omega)]
        calc n < base ^ (k+1) := hf
        _ = base ^ k * base := by ring
      rw [ih (n / base) hdiv]
      simp only [List.foldl_cons, List.foldl_nil]
      rw [hv (n % base) (Nat.mod_lt _ (by omega))]
      exact Nat.div_add_mod' n base

theorem digitsAux_length_le (base fuel n L : Nat) (hb : 2 ≤ base) (hL : 1 ≤ L)
    (hn : n < base ^ L) : (digitsAux base fuel n).length ≤ L := by
  induction fuel generalizing n L with
  | zero => simp [digitsAux]
  | succ k ih =>
    unfold digitsAux
    by_cases hlt : n < base
    · rw [if_pos hlt]
      simpa using hL
    · rw [if_neg hlt]
      have hL2 : 2 ≤ L := by
        by_contra hc
        have : L = 1 := by omega
        subst this
        simp only [pow_one] at hn
        exact hlt hn
      have hdiv : n / base < base ^ (L - 1) := by
        rw [Nat.div_lt_iff_lt_mul (by omega)]
        calc n < base ^ L := hn
        _ = base ^ (L - 1) * base := by
          rw [← pow_succ]
          congr 1
          omega
      have := ih (n / base) (L - 1) (by omega) hdiv
      simp only [List.length_append, List.length_cons, List.length_nil]
      omega

theorem hexLowChar_zero_iff (d : Nat) (hd : d < 16) : hexLowChar d = '0' ↔ d = 0 := by
  interval_cases d <;> simp [hexLowChar] <;> decide

theorem digitsAux_head_ne_zero (base fuel n : Nat) (hb : 2 ≤ base) (hb16 : base ≤ 16)
    (hn : n ≠ 0) (hbound : n < base ^ fuel) :
    (digitsAux base fuel n).head? ≠ some '0' := by
  induction fuel generalizing n with
  | zero =>
    simp only [pow_zero, Nat.lt_one_iff] at hbound
    exact absurd hbound hn
  | succ k ih =>
    unfold digitsAux
    by_cases hlt : n < base
    · rw [if_pos hlt]
      intro hc
      exact hn ((hexLowChar_zero_iff n (by omega)).1 (Option.some.inj hc))
    · rw [if_neg hlt]
      have hk : 1 ≤ k := by
        by_contra hc
        have : k = 0 := by omega
        subst this
        simp only [zero_add, pow_one] at hbound
        exact hlt hbound
      have hdiv : n / base < base ^ k := by
        rw [Nat.div_lt_iff_lt_mul (by omega)]
        calc n < base ^ (k+1) := hbound
        _ = base ^ k * base := by ring
      have hdnz : n / base ≠ 0 := by
        have : base ≤ n := by omega
        have := Nat.div_le_div_right (c := base) this
        rw [Nat.div_self (by omega : 0 < base)] at this
        omega
      have hne := digitsAux_ne_nil base (k-1) (n / base)
      have hkk : k - 1 + 1 = k := by omega
      rw [hkk] at hne
      cases hd : digitsAux base k (n / base) with
      | nil => exact absurd hd hne
      | cons x xs =>
        have := ih (n / base) hdnz hdiv
        rw [hd] at this
        simpa using this

theorem hexLowChar_props (d : Nat) (hd : d < 16) :
    isHexD (hexLowChar d) = true ∧ hexLowChar d ≠ '.' ∧ hexLowChar d ≠ ':' ∧
    hexLowChar d ≠ '/' ∧ hexLowChar d ≠ '[' := by
  interval_cases d <;> exact (by decide)

theorem hexLowChar_digit (d : Nat) (hd : d < 10) : isDigitC (hexLowChar d) = true := by
  interval_cases d <;> decide

theorem hexLowChar_val10 (d : Nat) (hd : d < 10) : (hexLowChar d).toNat - 48 = d := by
  interval_cases d <;> decide

theorem hexLowChar_val16 (d : Nat) (hd : d < 16) : hexDigitVal (hexLowChar d) = d := by
  interval_cases d <;> decide

theorem decChars_val (n : Nat) (hn : n < 10 ^ 40) : decVal (decChars n) = n :=
  digitsAux_val 10 40 n (fun c => c.toNat - 48) (by omega)
    (fun d hd => hexLowChar_val10 d hd) hn

theorem decChars_all_digits (n : Nat) (hn : n < 10 ^ 40) :
    (decChars n).all isDigitC = true := by
  rw [List.all_eq_true]
  intro c hc
  obtain ⟨d, hd, rfl⟩ := digitsAux_shape 10 40 n (by omega) hn c hc
  exact hexLowChar_digit d hd

theorem decChars_ne_nil (n : Nat) : decChars n ≠ [] := digitsAux_ne_nil 10 39 n

theorem hexChars_val (w : Nat) (hw : w < 16 ^ 40) : hexVal (hexChars w) = w :=
  digitsAux_val 16 40 w hexDigitVal (by omega) (fun d hd => hexLowChar_val16 d hd) hw

theorem hexChars_all_hex (w : Nat) (hw : w < 16 ^ 40) :
    (hexChars w).all isHexD = true := by
  rw [List.all_eq_true]
  intro c hc
  obtain ⟨d, hd, rfl⟩ := digitsAux_shape 16 40 w (by omega) hw c hc
  exact (hexLowChar_props d hd).1

theorem hexChars_ne_nil (w : Nat) : hexChars w ≠ [] := digitsAux_ne_nil 16 39 w

theorem parseHexTok_hexChars (w : Nat) (hw : w < 65536) :
    parseHexTok (hexChars w) = some w := by
  have h40 : w < 16 ^ 40 := by
    calc w < 65536 := hw
    _ ≤ 16 ^ 40 := by norm_num
  have hlen : (hexChars w).length ≤ 4 :=
    digitsAux_length_le 16 40 w 4 (by omega) (by omega) (by omega)
  unfold parseHexTok
  rw [if_pos (by
    simp only [Bool.and_eq_true, Bool.not_eq_true', decide_eq_true_eq]
    refine ⟨⟨?_, hlen⟩, hexChars_all_hex w h40⟩
    simpa [List.isEmpty_iff] using hexChars_ne_nil w)]
  rw [hexChars_val w h40]

theorem octetOk_decChars (b : Nat) (hb : b ≤ 255) : octetOk (decChars b) = true := by
  have h40 : b < 10 ^ 40 := by
    calc b < 1000 := by omega
    _ ≤ 10 ^ 40 := by norm_num
  unfold octetOk
  simp only [Bool.and_eq_true, Bool.not_eq_true', decide_eq_true_eq, Bool.or_eq_true,
    bne_iff_ne, ne_eq]
  refine ⟨⟨⟨?_, ?_⟩, ?_⟩, ?_⟩
  · simpa [List.isEmpty_iff] using decChars_ne_nil b
  · exact decChars_all_digits b h40
  · by_cases hlt : b < 10
    · left
      unfold decChars digitsAux
      rw [if_pos hlt]
      rfl
    · right
      exact digitsAux_head_ne_zero 10 40 b (by omega) (by omega) (by omega) h40
  · rw [decChars_val b h40]
    exact hb

/-! ### Claim C3: splitting and joining -/

theorem splitOnC_sep_free (sep : Char) (t : List Char) (h : ¬ sep ∈ t) :
    splitOnC sep t = [t] := by
  induction t with
  | nil => rfl
  | cons c rest ih =>
    have hc : ¬ (c = sep) := by
      intro e
      exact h (by simp [e])
    have hr : ¬ sep ∈ rest := fun hm => h (List.mem_cons_of_mem _ hm)
    simp only [splitOnC, ih hr]
    rw [if_neg hc]

theorem splitOnC_append_sep (sep : Char) (t r : List Char) (h : ¬ sep ∈ t) :
    splitOnC sep (t ++ sep :: r) = t :: splitOnC sep r := by
  induction t with
  | nil =>
    simp only [List.nil_append, splitOnC]
    cases hs : splitOnC sep r with
    | nil => exact absurd hs (splitOnC_ne_nil sep r)
    | cons x xs => simp
  | cons c t' ih =>
    have hc : ¬ (c = sep) := by
      intro e
      exact h (by simp [e])
    have ht' : ¬ sep ∈ t' := fun hm => h (List.mem_cons_of_mem _ hm)
    have heq := ih ht'
    simp only [List.cons_append, splitOnC, List.append_eq, heq]
    rw [if_neg hc]

theorem mem_joinSep (sep : Char) (ts : List (List Char)) (c : Char)
    (hc : c ∈ joinSep sep ts) : (∃ t ∈ ts, c ∈ t) ∨ c = sep := by
  induction ts with
  | nil => simp [joinSep] at hc
  | cons t rest ih =>
    cases rest with
    | nil =>
      simp only [joinSep] at hc
      exact Or.inl ⟨t, by simp, hc⟩
    | cons t2 ts2 =>
      simp only [joinSep] at hc
      rcases List.mem_append.1 hc with h1 | h1
      · exact Or.inl ⟨t, by simp, h1⟩
      · rcases List.mem_cons.1 h1 with h2 | h2
        · exact Or.inr h2
        · rcases ih h2 with ⟨u, hu, hcu⟩ | h3
          · exact Or.inl ⟨u, List.mem_cons_of_mem _ hu, hcu⟩
          · exact Or.inr h3

/-! ### Claim C3: the IPv4 print–parse roundtrip -/

theorem ntop4_eq_joinSep (a : Nat) :
    ntop4 a = joinSep '.' [decChars (a / 16777216 % 256), decChars (a / 65536 % 256),
      decChars (a / 256 % 256), decChars (a % 256)] := by
  simp [ntop4, joinSep]

theorem decChars_no_dot (n : Nat) (hn : n < 10 ^ 40) : ¬ '.' ∈ decChars n := by
  intro hm
  obtain ⟨d, hd, he⟩ := digitsAux_shape 10 40 n (by omega) hn '.' hm
  exact (hexLowChar_props d (by omega)).2.1 he.symm

theorem pton4_ntop4 (a : Nat) (ha : a < 4294967296) : pton4 (ntop4 a) = some a := by
  have hb0 : a / 16777216 % 256 ≤ 255 := by omega
  have hb1 : a / 65536 % 256 ≤ 255 := by omega
  have hb2 : a / 256 % 256 ≤ 255 := by omega
  have hb3 : a % 256 ≤ 255 := by omega
  have h40 : ∀ b : Nat, b ≤ 255 → b < 10 ^ 40 := by
    intro b hb
    calc b < 1000 := by omega
    _ ≤ 10 ^ 40 := by norm_num
  have hsplit : splitOnC '.' (ntop4 a) =
      [decChars (a / 16777216 % 256), decChars (a / 65536 % 256),
       decChars (a / 256 % 256), decChars (a % 256)] := by
    rw [ntop4_eq_joinSep]
    simp only [joinSep]
    rw [splitOnC_append_sep '.' _ _ (decChars_no_dot _ (h40 _ hb0)),
        splitOnC_append_sep '.' _ _ (decChars_no_dot _ (h40 _ hb1)),
        splitOnC_append_sep '.' _ _ (decChars_no_dot _ (h40 _ hb2)),
        splitOnC_sep_free '.' _ (decChars_no_dot _ (h40 _ hb3))]
  unfold pton4
  simp only [hsplit]
  rw [if_pos (by
    simp only [Bool.and_eq_true]
    exact ⟨⟨⟨octetOk_decChars _ hb0, octetOk_decChars _ hb1⟩, octetOk_decChars _ hb2⟩,
      octetOk_decChars _ hb3⟩)]
  rw [decChars_val _ (h40 _ hb0), decChars_val _ (h40 _ hb1), decChars_val _ (h40 _ hb2),
      decChars_val _ (h40 _ hb3)]
  congr 1
  omega

/-! ### Claim C3: 16-bit word decomposition -/

theorem toWords16_length (k a : Nat) : (toWords16 k a).length = k := by
  induction k generalizing a with
  | zero => rfl
  | succ j ih => simp [toWords16, ih]

theorem toWords16_lt (k a : Nat) : ∀ w ∈ toWords16 k a, w < 65536 := by
  induction k generalizing a with
  | zero => simp [toWords16]
  | succ j ih =>
    intro w hw
    simp only [toWords16] at hw
    rcases List.mem_append.1 hw with h1 | h1
    · exact ih (a / 65536) w h1
    · simp only [List.mem_singleton] at h1
      subst h1
      exact Nat.mod_lt _ (by omega)

theorem ofWords16_append_last (ws : List Nat) (w : Nat) :
    ofWords16 (ws ++ [w]) = ofWords16 ws * 65536 + w := by
  unfold ofWords16
  rw [List.foldl_append]
  rfl

theorem ofWords16_toWords16 (k a : Nat) (ha : a < 65536 ^ k) :
    ofWords16 (toWords16 k a) = a := by
  induction k generalizing a with
  | zero =>
    simp only [pow_zero, Nat.lt_one_iff] at ha
    subst ha
    rfl
  | succ j ih =>
    simp only [toWords16]
    rw [ofWords16_append_last]
    have hdiv : a / 65536 < 65536 ^ j := by
      rw [Nat.div_lt_iff_lt_mul (by omega)]
      calc a < 65536 ^ (j+1) := ha
      _ = 65536 ^ j * 65536 := by ring
    rw [ih (a / 65536) hdiv]
    exact Nat.div_add_mod' a 65536

theorem ofWords16_lt (ws : List Nat) (hws : ∀ w ∈ ws, w < 65536) :
    ofWords16 ws < 65536 ^ ws.length := by
  have key : ∀ (l : List Nat) (acc : Nat), (∀ w ∈ l, w < 65536) →
      l.foldl (fun acc w => acc * 65536 + w) acc < 65536 ^ l.length * (acc + 1) := by
    intro l
    induction l with
    | nil => intro acc _; simpa using Nat.lt_succ_self acc
    | cons w rest ih =>
      intro acc hl
      simp only [List.foldl_cons, List.length_cons]
      have hw : w < 65536 := hl w (by simp)
      have := ih (acc * 65536 + w) (fun x hx => hl x (List.mem_cons_of_mem _ hx))
      calc List.foldl (fun acc w => acc * 65536 + w) (acc * 65536 + w) rest
          < 65536 ^ rest.length * (acc * 65536 + w + 1) := this
      _ ≤ 65536 ^ rest.length * (65536 * (acc + 1)) := by
          apply Nat.mul_le_mul_left
          omega
      _ = 65536 ^ (rest.length + 1) * (acc + 1) := by ring
  have := key ws 0 hws
  simpa using this

theorem toWords16_getD (k a i : Nat) (h : i < k) :
    (toWords16 k a).getD i 0 = a / 65536 ^ (k - 1 - i) % 65536 := by
  induction k generalizing a i with
  | zero => omega
  | succ j ih =>
    simp only [toWords16]
    by_cases hij : i < j
    · rw [List.getD_append _ _ _ _ (by rw [toWords16_length]; exact hij)]
      rw [ih (a / 65536) i hij]
      rw [Nat.div_div_eq_div_mul, ← pow_succ']
      have he : j - 1 - i + 1 = j + 1 - 1 - i := by omega
      rw [he]
    · have hij' : i = j := by omega
      subst hij'
      rw [List.getD_append_right _ _ _ _ (by simp [toWords16_length])]
      rw [toWords16_length]
      simp

/-! ### Claim C3: properties of the best zero run -/

theorem drop_cons_facts (ws : List Nat) (i : Nat) (w : Nat) (rest' : List Nat)
    (h : ws.drop i = w :: rest') :
    i < ws.length ∧ ws.getD i 0 = w ∧ ws.drop (i+1) = rest' := by
  refine ⟨?_, ?_, ?_⟩
  · by_contra hc
    push_neg at hc
    rw [List.drop_eq_nil_of_le hc] at h
    cases h
  · rw [List.getD_eq_getElem?_getD]
    have h0 : (ws.drop i)[0]? = ws[i]? := by
      rw [List.getElem?_drop, Nat.add_zero]
    rw [← h0, h]
    simp
  · have : ws.drop (i+1) = (ws.drop i).drop 1 := by
      rw [List.drop_drop]
    rw [this, h]
    rfl

theorem mergeRun_eq (best cur : Option (Nat × Nat)) (bl : Nat × Nat)
    (h : mergeRun best cur = some bl) : best = some bl ∨ cur = some bl := by
  unfold mergeRun at h
  cases cur with
  | none => exact Or.inl h
  | some c =>
    cases best with
    | none => exact Or.inr h
    | some be =>
      have h' : (if be.2 < c.2 then some c else some be) = some bl := h
      by_cases hcmp : be.2 < c.2
      · rw [if_pos hcmp] at h'
        exact Or.inr h'
      · rw [if_neg hcmp] at h'
        exact Or.inl h'

theorem bestRunAux_spec (ws : List Nat) (rest : List Nat) :
    ∀ (i : Nat) (cur best : Option (Nat × Nat)),
    rest = ws.drop i → i ≤ ws.length →
    (∀ bc lc, cur = some (bc, lc) → bc + lc = i ∧ 1 ≤ lc ∧
      ∀ j, bc ≤ j → j < i → ws.getD j 0 = 0) →
    (∀ bb lb, best = some (bb, lb) → bb + lb ≤ i ∧ 1 ≤ lb ∧
      ∀ j, bb ≤ j → j < bb + lb → ws.getD j 0 = 0) →
    ∀ b l, bestRunAux rest i cur best = some (b, l) →
      2 ≤ l ∧ b + l ≤ ws.length ∧ ∀ j, b ≤ j → j < b + l → ws.getD j 0 = 0 := by
  induction rest with
  | nil =>
    intro i cur best hrest hi hcur hbest b l hres
    have hieq : i = ws.length := by
      have := congrArg List.length hrest
      simp only [List.length_nil, List.length_drop] at this
      omega
    subst hieq
    unfold bestRunAux at hres
    split at hres
    · cases hres
    · rename_i bl hm
      split at hres
      · cases hres
      · rename_i h2
        injection hres with h'
        subst h'
        push_neg at h2
        rcases mergeRun_eq best cur _ hm with hc | hc
        · obtain ⟨h1, _, h3⟩ := hbest b l hc
          exact ⟨h2, h1, h3⟩
        · obtain ⟨h1, _, h3⟩ := hcur b l hc
          exact ⟨h2, by omega, fun j hj1 hj2 => h3 j hj1 (by omega)⟩
  | cons w rest' ih =>
    intro i cur best hrest hi hcur hbest b l hres
    obtain ⟨hilt, hgd, hdrop⟩ := drop_cons_facts ws i w rest' hrest.symm
    unfold bestRunAux at hres
    by_cases hw : w = 0
    · rw [if_pos hw] at hres
      refine ih (i+1) _ best hdrop.symm (by omega) ?_ ?_ b l hres
      · intro bc lc hc
        cases hcu : cur with
        | none =>
          rw [hcu] at hc
          injection hc with h'
          injection h' with he1 he2
          subst he1
          subst he2
          refine ⟨by omega, by omega, ?_⟩
          intro j hj1 hj2
          have : j = i := by omega
          subst this
          rw [hgd, hw]
        | some c =>
          rw [hcu] at hc
          injection hc with h'
          injection h' with he1 he2
          subst he1
          subst he2
          obtain ⟨h1, h2, h3⟩ := hcur c.1 c.2 (by rw [hcu])
          refine ⟨by omega, by omega, ?_⟩
          intro j hj1 hj2
          by_cases hji : j < i
          · exact h3 j (by omega) hji
          · have : j = i := by omega
            subst this
            rw [hgd, hw]
      · intro bb lb hb
        obtain ⟨h1, h2, h3⟩ := hbest bb lb hb
        exact ⟨by omega, h2, h3⟩
    · rw [if_neg hw] at hres
      refine ih (i+1) none _ hdrop.symm (by omega) (by simp) ?_ b l hres
      intro bb lb hb
      rcases mergeRun_eq best cur _ hb with hc | hc
      · obtain ⟨h1, h2, h3⟩ := hbest bb lb hc
        exact ⟨by omega, h2, h3⟩
      · obtain ⟨h1, h2, h3⟩ := hcur bb lb hc
        exact ⟨by omega, h2, fun j hj1 hj2 => h3 j hj1 (by omega)⟩

theorem bestRun_spec (ws : List Nat) (b l : Nat) (h : bestRun ws = some (b, l)) :
    2 ≤ l ∧ b + l ≤ ws.length ∧ ∀ j, b ≤ j → j < b + l → ws.getD j 0 = 0 := by
  refine bestRunAux_spec ws ws 0 none none ?_ (by omega) (by simp) (by simp) b l h
  simp

theorem zeros_decomp (ws : List Nat) (b l : Nat) (hbl : b + l ≤ ws.length)
    (hz : ∀ j, b ≤ j → j < b + l → ws.getD j 0 = 0) :
    ws = ws.take b ++ List.replicate l 0 ++ ws.drop (b + l) := by
  have hmid : (ws.drop b).take l = List.replicate l 0 := by
    rw [List.eq_replicate]
    constructor
    · rw [List.length_take, List.length_drop]
      omega
    · intro x hx
      obtain ⟨j, hjlt, hxx⟩ := List.mem_iff_getElem.mp hx
      have hjl : j < l := by
        rw [List.length_take, List.length_drop] at hjlt
        omega
      have hjb : b + j < ws.length := by omega
      rw [List.getElem_take] at hxx
      rw [List.getElem_drop] at hxx
      have := hz (b + j) (by omega) (by omega)
      rw [List.getD_eq_getElem?_getD, List.getElem?_eq_getElem hjb] at this
      simp only [Option.getD_some] at this
      rw [← hxx, this]
  have h1 : ws = ws.take b ++ ws.drop b := (List.take_append_drop b ws).symm
  have h2 : ws.drop b = (ws.drop b).take l ++ (ws.drop b).drop l := (List.take_append_drop l _).symm
  have h3 : (ws.drop b).drop l = ws.drop (b + l) := by
    rw [List.drop_drop]
  calc ws = ws.take b ++ ws.drop b := h1
  _ = ws.take b ++ ((ws.drop b).take l ++ (ws.drop b).drop l) := by rw [← h2]
  _ = ws.take b ++ List.replicate l 0 ++ ws.drop (b + l) := by
      rw [hmid, h3, List.append_assoc]

/-! ### Claim C3: the shape of the inet_ntop6 output -/

theorem joinColon_map_cons (f : Nat → List Char) (w : Nat) (rest : List Nat) :
    joinColon ((w :: rest).map f) = f w ++ rest.flatMap (fun u => ':' :: f u) := by
  induction rest generalizing w with
  | nil => simp [joinColon, joinSep]
  | cons w2 rest2 ih =>
    simp only [List.map_cons] at *
    show joinSep ':' (f w :: f w2 :: rest2.map f) = _
    rw [joinSep]
    have := ih w2
    rw [List.flatMap_cons]
    simp only [joinColon] at this
    rw [this]
    simp

theorem flatMap_colon_join (f : Nat → List Char) (rem : List Nat) (h : rem ≠ []) :
    rem.flatMap (fun u => ':' :: f u) = ':' :: joinColon (rem.map f) := by
  cases rem with
  | nil => exact absurd rfl h
  | cons w rest =>
    rw [joinColon_map_cons, List.flatMap_cons]
    simp

theorem ntop6Go_seg_pos (ws : List Nat) (best : Option (Nat × Nat)) (rem : List Nat) :
    ∀ (i : Nat), embedClause ws best = false →
    (∀ j, i ≤ j → j < i + rem.length → inRun best j = false) → i ≠ 0 →
    ntop6Go ws best i rem = rem.flatMap (fun w => ':' :: hexChars w) := by
  induction rem with
  | nil => intro i _ _ _; rfl
  | cons w rest ih =>
    intro i hemb hno hi
    have hni : inRun best i = false := hno i (Nat.le_refl i)
      (by simp only [List.length_cons]; omega)
    unfold ntop6Go
    rw [hni]
    simp only [Bool.false_eq_true, if_false, hemb, Bool.and_false]
    rw [if_pos hi]
    rw [ih (i+1) hemb (fun j hj1 hj2 => hno j (by omega)
      (by simp only [List.length_cons]; omega)) (by omega)]
    simp

theorem ntop6Go_seg_zero (ws : List Nat) (best : Option (Nat × Nat)) (rem : List Nat)
    (hemb : embedClause ws best = false)
    (hno : ∀ j, j < rem.length → inRun best j = false) :
    ntop6Go ws best 0 rem = joinColon (rem.map hexChars) := by
  cases rem with
  | nil => rfl
  | cons w rest =>
    have hn0 : inRun best 0 = false := hno 0 (by simp)
    unfold ntop6Go
    rw [hn0]
    simp only [Bool.false_eq_true, if_false, hemb, Bool.and_false, ne_eq,
      not_true_eq_false, if_neg, if_false]
    rw [ntop6Go_seg_pos ws best rest 1 hemb
      (fun j hj1 hj2 => hno j (by simp at hj2 ⊢; omega)) (by omega)]
    rw [joinColon_map_cons]
    simp

theorem ntop6Go_run_inner (ws : List Nat) (b l : Nat) (rest : List Nat) :
    ∀ (z i : Nat), b < i → i + z ≤ b + l →
    ntop6Go ws (some (b, l)) i (List.replicate z 0 ++ rest) =
      ntop6Go ws (some (b, l)) (i + z) rest := by
  intro z
  induction z with
  | zero => intro i _ _; simp
  | succ z' ih =>
    intro i hgt hcover
    rw [List.replicate_succ, List.cons_append]
    have hin : inRun (some (b, l)) i = true := by
      simp only [inRun, Bool.and_eq_true, decide_eq_true_eq]
      omega
    have hib : (i = b) = False := by simp; omega
    simp only [ntop6Go, hin, if_true, hib, decide_False, Bool.false_eq_true, if_false,
      List.nil_append]
    have h2 := ih (i+1) (by omega) (by omega)
    rw [h2]
    have h3 : i + 1 + z' = i + (z' + 1) := by omega
    rw [h3]

theorem ntop6Go_run_start (ws : List Nat) (b l : Nat) (rest : List Nat) (z : Nat)
    (hz : 1 ≤ z) (hcover : z ≤ l) :
    ntop6Go ws (some (b, l)) b (List.replicate z 0 ++ rest) =
      ':' :: ntop6Go ws (some (b, l)) (b + z) rest := by
  cases z with
  | zero => omega
  | succ z' =>
    rw [List.replicate_succ, List.cons_append]
    have hin : inRun (some (b, l)) b = true := by
      simp only [inRun, Bool.and_eq_true, decide_eq_true_eq]
      omega
    simp only [ntop6Go, hin, if_true, decide_True, if_pos rfl]
    rw [ntop6Go_run_inner ws b l rest z' (b+1) (by omega) (by omega)]
    have h3 : b + 1 + z' = b + (z' + 1) := by omega
    rw [h3]
    simp

theorem ntop6Go_append (ws : List Nat) (best : Option (Nat × Nat)) (xs : List Nat) :
    ∀ (i : Nat) (ys : List Nat), embedClause ws best = false →
    ntop6Go ws best i (xs ++ ys) =
      ntop6Go ws best i xs ++ ntop6Go ws best (i + xs.length) ys := by
  induction xs with
  | nil => intro i ys _; simp [ntop6Go]
  | cons w rest ih =>
    intro i ys hemb
    rw [List.cons_append]
    simp only [ntop6Go, hemb, Bool.and_false, Bool.false_eq_true, if_false]
    rw [ih (i+1) ys hemb]
    by_cases hin : inRun best i = true
    · simp only [hin, if_true, List.length_cons]
      have : i + 1 + rest.length = i + (rest.length + 1) := by omega
      rw [this]
      simp
    · simp only [Bool.not_eq_true] at hin
      simp only [hin, Bool.false_eq_true, if_false, List.length_cons]
      have : i + 1 + rest.length = i + (rest.length + 1) := by omega
      rw [this]
      simp

theorem ipWords_length (a : Nat) : (ipWords a).length = 8 := toWords16_length 8 a

theorem inRun_false_out (b l j : Nat) (h : j < b ∨ b + l ≤ j) :
    inRun (some (b, l)) j = false := by
  simp only [inRun, Bool.and_eq_false_iff, decide_eq_false_iff_not, not_le, not_lt]
  omega

theorem drop_ne_nil_of_len (l : List Nat) (n : Nat) (h : n < l.length) :
    l.drop n ≠ [] := by
  intro hc
  have := congrArg List.length hc
  simp only [List.length_drop, List.length_nil] at this
  omega

theorem ntop6_shape_norun (a : Nat) (h : bestRun (ipWords a) = none) :
    ntop6 a = joinColon ((ipWords a).map hexChars) := by
  have hntop : ntop6 a = ntop6Go (ipWords a) none 0 (ipWords a) ++ [] := by
    simp only [ntop6, h]
  rw [hntop]
  rw [ntop6Go_seg_zero _ none _ rfl (fun j _ => rfl)]
  simp

theorem ntop6_shape_run (a b l : Nat) (h : bestRun (ipWords a) = some (b, l))
    (hemb : embedClause (ipWords a) (some (b, l)) = false) :
    ntop6 a = joinColon (((ipWords a).take b).map hexChars) ++ ':' :: ':' ::
      joinColon (((ipWords a).drop (b + l)).map hexChars) := by
  obtain ⟨hl2, hbl8, hz⟩ := bestRun_spec _ _ _ h
  rw [ipWords_length] at hbl8
  have hdecomp := zeros_decomp (ipWords a) b l (by rw [ipWords_length]; omega) hz
  have hlentake : ((ipWords a).take b).length = b := by
    rw [List.length_take, ipWords_length]
    omega
  have hntop : ntop6 a = ntop6Go (ipWords a) (some (b, l)) 0 (ipWords a) ++
      (if b + l = 8 then [':'] else []) := by
    simp only [ntop6, h]
  have hgo : ntop6Go (ipWords a) (some (b, l)) 0 (ipWords a) =
      ntop6Go (ipWords a) (some (b, l)) 0
        ((ipWords a).take b ++ (List.replicate l 0 ++ (ipWords a).drop (b + l))) := by
    congr 1
    rw [← List.append_assoc, ← hdecomp]
  have hafter : (ipWords a).drop (b + l) ≠ [] →
      ntop6Go (ipWords a) (some (b, l)) (b + l) ((ipWords a).drop (b + l)) =
        ':' :: joinColon (((ipWords a).drop (b + l)).map hexChars) := by
    intro hne
    rw [ntop6Go_seg_pos _ _ _ (b + l) hemb
      (fun j hj1 _ => inRun_false_out b l j (Or.inr hj1)) (by omega)]
    exact flatMap_colon_join _ _ hne
  rw [hntop, hgo]
  by_cases hb : b = 0
  · subst hb
    rw [List.take_zero, List.nil_append]
    rw [ntop6Go_run_start _ 0 l _ l (by omega) (le_refl l)]
    simp only [Nat.zero_add, List.map_nil]
    by_cases h8 : l = 8
    · subst h8
      have hTnil : (ipWords a).drop 8 = [] := by
        apply List.drop_eq_nil_of_le
        rw [ipWords_length]
      rw [hTnil]
      simp [joinColon, joinSep, ntop6Go]
    · have hTne : (ipWords a).drop l ≠ [] :=
        drop_ne_nil_of_len _ _ (by rw [ipWords_length]; omega)
      have := hafter (by simpa using hTne)
      simp only [Nat.zero_add] at this
      rw [this]
      simp only [joinColon, joinSep]
      rw [if_neg h8]
      simp
  · by_cases h8 : b + l = 8
    · have hTnil : (ipWords a).drop (b + l) = [] := by
        apply List.drop_eq_nil_of_le
        rw [ipWords_length]
        omega
      rw [ntop6Go_append _ _ _ 0 _ hemb, hlentake]
      rw [ntop6Go_seg_zero _ _ _ hemb
        (fun j hj => inRun_false_out b l j (Or.inl (by rw [hlentake] at hj; omega)))]
      simp only [Nat.zero_add]
      rw [ntop6Go_run_start _ b l _ l (by omega) (le_refl l)]
      rw [hTnil]
      rw [if_pos h8]
      simp [ntop6Go, joinColon, joinSep]
    · have hTne : (ipWords a).drop (b + l) ≠ [] :=
        drop_ne_nil_of_len _ _ (by rw [ipWords_length]; omega)
      rw [ntop6Go_append _ _ _ 0 _ hemb, hlentake]
      rw [ntop6Go_seg_zero _ _ _ hemb
        (fun j hj => inRun_false_out b l j (Or.inl (by rw [hlentake] at hj; omega)))]
      simp only [Nat.zero_add]
      rw [ntop6Go_run_start _ b l _ l (by omega) (le_refl l)]
      rw [hafter hTne]
      rw [if_neg h8]
      simp

theorem ntop6_shape_run07 (a : Nat) (h : bestRun (ipWords a) = some (0, 7)) :
    ntop6 a = ':' :: ':' :: joinColon (((ipWords a).drop 7).map hexChars) := by
  obtain ⟨_, hbl8, hz⟩ := bestRun_spec _ _ _ h
  have hdecomp := zeros_decomp (ipWords a) 0 7 hbl8 hz
  rw [List.take_zero, List.nil_append, Nat.zero_add] at hdecomp
  obtain ⟨x, hx⟩ : ∃ x, (ipWords a).drop 7 = [x] := by
    rw [← List.length_eq_one, List.length_drop, ipWords_length]
  have hntop : ntop6 a = ntop6Go (ipWords a) (some (0, 7)) 0 (ipWords a) ++ [] := by
    simp [ntop6, h]
  have hgo : ntop6Go (ipWords a) (some (0, 7)) 0 (ipWords a) =
      ntop6Go (ipWords a) (some (0, 7)) 0 (List.replicate 7 0 ++ (ipWords a).drop 7) :=
    congrArg (ntop6Go (ipWords a) (some (0, 7)) 0) hdecomp
  rw [hntop, hgo, hx, ntop6Go_run_start _ 0 7 _ 7 (by omega) (le_refl 7)]
  simp [ntop6Go, inRun, joinColon, joinSep]

theorem ntop6_shape_embed6 (a : Nat) (h : bestRun (ipWords a) = some (0, 6)) :
    ntop6 a = ':' :: ':' ::
      ntop4 ((ipWords a).getD 6 0 * 65536 + (ipWords a).getD 7 0) := by
  obtain ⟨_, hbl8, hz⟩ := bestRun_spec _ _ _ h
  have hdecomp := zeros_decomp (ipWords a) 0 6 hbl8 hz
  rw [List.take_zero, List.nil_append, Nat.zero_add] at hdecomp
  obtain ⟨x, y, hxy⟩ : ∃ x y, (ipWords a).drop 6 = [x, y] := by
    rw [← List.length_eq_two, List.length_drop, ipWords_length]
  have hE : embedClause (ipWords a) (some (0, 6)) = true := by
    simp [embedClause]
  have hntop : ntop6 a = ntop6Go (ipWords a) (some (0, 6)) 0 (ipWords a) ++ [] := by
    simp [ntop6, h]
  have hgo : ntop6Go (ipWords a) (some (0, 6)) 0 (ipWords a) =
      ntop6Go (ipWords a) (some (0, 6)) 0 (List.replicate 6 0 ++ (ipWords a).drop 6) :=
    congrArg (ntop6Go (ipWords a) (some (0, 6)) 0) hdecomp
  rw [hntop, hgo, hxy, ntop6Go_run_start _ 0 6 _ 6 (by omega) (le_refl 6)]
  simp [ntop6Go, inRun, hE]

theorem ntop6_shape_embed5 (a : Nat) (h : bestRun (ipWords a) = some (0, 5))
    (h5 : (ipWords a).getD 5 0 = 65535) :
    ntop6 a = ':' :: ':' :: hexChars 65535 ++ ':' ::
      ntop4 ((ipWords a).getD 6 0 * 65536 + (ipWords a).getD 7 0) := by
  obtain ⟨_, hbl8, hz⟩ := bestRun_spec _ _ _ h
  have hdecomp := zeros_decomp (ipWords a) 0 5 hbl8 hz
  rw [List.take_zero, List.nil_append, Nat.zero_add] at hdecomp
  obtain ⟨x, hrest, hx⟩ : ∃ x rest5, (ipWords a).drop 5 = x :: rest5 := by
    cases hd : (ipWords a).drop 5 with
    | nil =>
      exfalso
      exact drop_ne_nil_of_len _ _ (by rw [ipWords_length]; omega) hd
    | cons x r => exact ⟨x, r, rfl⟩
  have hx5 : x = 65535 := by
    have := (drop_cons_facts _ _ _ _ hx).2.1
    rw [h5] at this
    omega
  obtain ⟨y, z, hyz⟩ : ∃ y z, hrest = [y, z] := by
    rw [← List.length_eq_two]
    have := congrArg List.length hx
    rw [List.length_drop, ipWords_length] at this
    simp only [List.length_cons] at this
    omega
  have hE : embedClause (ipWords a) (some (0, 5)) = true := by
    simp [embedClause, ← List.getD_eq_getElem?_getD, h5]
  have hntop : ntop6 a = ntop6Go (ipWords a) (some (0, 5)) 0 (ipWords a) ++ [] := by
    simp [ntop6, h]
  have hgo : ntop6Go (ipWords a) (some (0, 5)) 0 (ipWords a) =
      ntop6Go (ipWords a) (some (0, 5)) 0 (List.replicate 5 0 ++ (ipWords a).drop 5) :=
    congrArg (ntop6Go (ipWords a) (some (0, 5)) 0) hdecomp
  rw [hx, hyz, hx5] at hgo
  rw [hntop, hgo, ntop6Go_run_start _ 0 5 _ 5 (by omega) (le_refl 5)]
  simp [ntop6Go, inRun, hE]

theorem findSplit2_cons (c : Char) (z : List Char)
    (h : c ≠ ':' ∨ ∀ z', z ≠ ':' :: z') :
    findSplit2 (c :: z) = (findSplit2 z).map (fun p => (c :: p.1, p.2)) := by
  cases z with
  | nil =>
    rw [findSplit2.eq_def]
    split
    · rename_i r heq
      cases heq
    · rename_i c' r heq
      injection heq with h1 h2
      rw [h1, h2]
    · rename_i heq
      cases heq
  | cons z1 z2 =>
    rw [findSplit2.eq_def]
    split
    · rename_i r heq
      exfalso
      injection heq with h1 h2
      injection h2 with h3 h4
      rcases h with hc | hz
      · exact hc h1
      · exact hz r (by rw [h3, h4])
    · rename_i c' r heq
      injection heq with h1 h2
      rw [h1, h2]
    · rename_i heq
      cases heq

theorem findSplit2_cf_append (t r : List Char) (h : ¬ ':' ∈ t) :
    findSplit2 (t ++ r) = (findSplit2 r).map (fun p => (t ++ p.1, p.2)) := by
  induction t with
  | nil =>
    cases hr : findSplit2 r <;> simp [hr]
  | cons c t' ih =>
    have hc : c ≠ ':' := fun he => h (by rw [he]; exact List.mem_cons_self _ _)
    rw [List.cons_append, findSplit2_cons c (t' ++ r) (Or.inl hc),
      ih (fun hm => h (List.mem_cons_of_mem _ hm))]
    cases hr : findSplit2 r <;> simp

theorem findSplit2_cf_none (t : List Char) (h : ¬ ':' ∈ t) :
    findSplit2 t = none := by
  have := findSplit2_cf_append t [] h
  rw [List.append_nil] at this
  rw [this]
  rfl

theorem joinColon_cons_ex (t : List Char) (ts : List (List Char)) :
    ∃ X, joinColon (t :: ts) = t ++ X := by
  cases ts with
  | nil => exact ⟨[], by simp [joinColon, joinSep]⟩
  | cons t' ts' => exact ⟨':' :: joinColon (t' :: ts'), rfl⟩

theorem joinColon_ne_colon_cons (t : List Char) (ts : List (List Char))
    (ht : t ≠ []) (hc : ¬ ':' ∈ t) :
    ∀ z', joinColon (t :: ts) ≠ ':' :: z' := by
  intro z' heq
  obtain ⟨X, hX⟩ := joinColon_cons_ex t ts
  rw [hX] at heq
  cases t with
  | nil => exact ht rfl
  | cons c tt =>
    rw [List.cons_append] at heq
    injection heq with h1 _
    exact hc (by rw [h1]; exact List.mem_cons_self _ _)

theorem findSplit2_join_none (ts : List (List Char))
    (h : ∀ t ∈ ts, t ≠ [] ∧ ¬ ':' ∈ t) :
    findSplit2 (joinColon ts) = none := by
  induction ts with
  | nil => rfl
  | cons t ts' ih =>
    cases ts' with
    | nil =>
      have : joinColon [t] = t := by simp [joinColon, joinSep]
      rw [this]
      exact findSplit2_cf_none t (h t (List.mem_cons_self _ _)).2
    | cons t' ts'' =>
      have hj : joinColon (t :: t' :: ts'') = t ++ ':' :: joinColon (t' :: ts'') := rfl
      rw [hj, findSplit2_cf_append t _ (h t (List.mem_cons_self _ _)).2]
      have ht' := h t' (List.mem_cons_of_mem _ (List.mem_cons_self _ _))
      rw [findSplit2_cons ':' _ (Or.inr (joinColon_ne_colon_cons t' ts'' ht'.1 ht'.2))]
      rw [ih (fun u hu => h u (List.mem_cons_of_mem _ hu))]
      rfl

theorem findSplit2_join2 (ts : List (List Char)) (y : List Char)
    (h : ∀ t ∈ ts, t ≠ [] ∧ ¬ ':' ∈ t) :
    findSplit2 (joinColon ts ++ ':' :: ':' :: y) = some (joinColon ts, y) := by
  induction ts with
  | nil =>
    have : joinColon [] = [] := rfl
    rw [this, List.nil_append]
    rfl
  | cons t ts' ih =>
    cases ts' with
    | nil =>
      have hj : joinColon [t] = t := by simp [joinColon, joinSep]
      rw [hj, findSplit2_cf_append t _ (h t (List.mem_cons_self _ _)).2]
      have : findSplit2 (':' :: ':' :: y) = some ([], y) := rfl
      rw [this]
      simp
    | cons t' ts'' =>
      have hj : joinColon (t :: t' :: ts'') = t ++ ':' :: joinColon (t' :: ts'') := rfl
      rw [hj, List.append_assoc, List.cons_append,
        findSplit2_cf_append t _ (h t (List.mem_cons_self _ _)).2]
      have ht' := h t' (List.mem_cons_of_mem _ (List.mem_cons_self _ _))
      have hnc : ∀ z', joinColon (t' :: ts'') ++ ':' :: ':' :: y ≠ ':' :: z' := by
        intro z' heq
        obtain ⟨X, hX⟩ := joinColon_cons_ex t' ts''
        rw [hX, List.append_assoc] at heq
        cases t' with
        | nil => exact ht'.1 rfl
        | cons c tt =>
          rw [List.cons_append] at heq
          injection heq with h1 _
          exact ht'.2 (by rw [h1]; exact List.mem_cons_self _ _)
      rw [findSplit2_cons ':' _ (Or.inr hnc),
        ih (fun u hu => h u (List.mem_cons_of_mem _ hu))]
      rfl

theorem splitOnC_joinSep (sep : Char) (ts : List (List Char)) (hne : ts ≠ [])
    (h : ∀ t ∈ ts, ¬ sep ∈ t) :
    splitOnC sep (joinSep sep ts) = ts := by
  induction ts with
  | nil => exact absurd rfl hne
  | cons t ts' ih =>
    cases ts' with
    | nil =>
      have hj : joinSep sep [t] = t := by simp [joinSep]
      rw [hj]
      exact splitOnC_sep_free sep t (h t (List.mem_cons_self _ _))
    | cons t' ts'' =>
      have hj : joinSep sep (t :: t' :: ts'') = t ++ sep :: joinSep sep (t' :: ts'') := rfl
      rw [hj, splitOnC_append_sep sep t _ (h t (List.mem_cons_self _ _)),
        ih (by simp) (fun u hu => h u (List.mem_cons_of_mem _ hu))]

theorem not_colon_mem_hexChars (w : Nat) (hw : w < 65536) : ¬ ':' ∈ hexChars w := by
  intro hm
  have hall := hexChars_all_hex w (by calc w < 65536 := hw
    _ ≤ 16 ^ 40 := by norm_num)
  rw [List.all_eq_true] at hall
  exact absurd (hall ':' hm) (by decide)

theorem not_dot_mem_hexChars (w : Nat) (hw : w < 65536) : ¬ '.' ∈ hexChars w := by
  intro hm
  have hall := hexChars_all_hex w (by calc w < 65536 := hw
    _ ≤ 16 ^ 40 := by norm_num)
  rw [List.all_eq_true] at hall
  exact absurd (hall '.' hm) (by decide)

theorem not_colon_mem_ntop4 (v : Nat) : ¬ ':' ∈ ntop4 v := by
  intro hm
  rw [ntop4_eq_joinSep] at hm
  rcases mem_joinSep '.' _ ':' hm with ⟨t, ht, hct⟩ | hdot
  · have hd : ∃ m, m < 10 ^ 40 ∧ t = decChars m := by
      simp only [List.mem_cons, List.not_mem_nil, or_false] at ht
      rcases ht with h1 | h1 | h1 | h1 <;>
        exact ⟨_, by omega, h1⟩
    obtain ⟨m, hm40, rfl⟩ := hd
    have hall := decChars_all_digits m hm40
    rw [List.all_eq_true] at hall
    have := hall ':' hct
    simp [isDigitC] at this
  · cases hdot

theorem ntop4_ne_nil (v : Nat) : ntop4 v ≠ [] := by
  rw [ntop4_eq_joinSep]
  have hj : joinSep '.' [decChars (v / 16777216 % 256), decChars (v / 65536 % 256),
      decChars (v / 256 % 256), decChars (v % 256)] =
      decChars (v / 16777216 % 256) ++ '.' :: joinSep '.' [decChars (v / 65536 % 256),
      decChars (v / 256 % 256), decChars (v % 256)] := rfl
  rw [hj]
  intro he
  rcases List.append_eq_nil.1 he with ⟨_, h2⟩
  cases h2

theorem tokensOf_joinColon (ts : List (List Char))
    (h : ∀ t ∈ ts, t ≠ [] ∧ ¬ ':' ∈ t) :
    tokensOf (joinColon ts) = some ts := by
  cases ts with
  | nil => rfl
  | cons t ts' =>
    obtain ⟨X, hX⟩ := joinColon_cons_ex t ts'
    have hne : joinColon (t :: ts') ≠ [] := by
      rw [hX]
      intro he
      exact (h t (List.mem_cons_self _ _)).1 (List.append_eq_nil.1 he).1
    have hsplit : splitOnC ':' (joinColon (t :: ts')) = t :: ts' :=
      splitOnC_joinSep ':' (t :: ts') (by simp) (fun u hu => (h u hu).2)
    rw [tokensOf]
    rw [if_neg (by simp [List.isEmpty_iff, hne])]
    rw [hsplit]
    rw [if_neg ?_]
    intro hany
    rw [List.any_eq_true] at hany
    obtain ⟨u, hu, hue⟩ := hany
    exact (h u hu).1 (by rwa [List.isEmpty_iff] at hue)

theorem wordsOfToks_map_hex (ws : List Nat) (embOk : Bool)
    (h : ∀ w ∈ ws, w < 65536) :
    wordsOfToks (ws.map hexChars) embOk = some ws := by
  induction ws with
  | nil => rfl
  | cons w rest ih =>
    have hw : w < 65536 := h w (List.mem_cons_self _ _)
    cases rest with
    | nil =>
      have hnd : (hexChars w).contains '.' = false := by
        simp [List.contains]
        exact not_dot_mem_hexChars w hw
      rw [List.map_cons, List.map_nil, wordsOfToks]
      rw [hnd]
      simp only [Bool.and_false, Bool.false_eq_true, if_false]
      rw [parseHexTok_hexChars w hw]
      rfl
    | cons w' rest' =>
      have hrest := ih (fun u hu => h u (List.mem_cons_of_mem _ hu))
      rw [List.map_cons] at hrest ⊢
      simp only [wordsOfToks, parseHexTok_hexChars w hw, hrest, Option.bind_eq_bind,
        Option.some_bind]
      rfl

theorem isEmpty_false_of_ne_nil (l : List Char) (h : l ≠ []) : l.isEmpty = false := by
  cases l with
  | nil => exact absurd rfl h
  | cons a t => rfl

theorem pton6_one_piece (ws : List Nat) (hlt : ∀ w ∈ ws, w < 65536)
    (hws8 : ws.length = 8) :
    pton6 (joinColon (ws.map hexChars)) = some (ofWords16 ws) := by
  have hcond : ∀ t ∈ ws.map hexChars, t ≠ [] ∧ ¬ ':' ∈ t := by
    intro t ht
    rw [List.mem_map] at ht
    obtain ⟨w, hwmem, rfl⟩ := ht
    exact ⟨hexChars_ne_nil w, not_colon_mem_hexChars w (hlt w hwmem)⟩
  have hfs : findSplit2 (joinColon (ws.map hexChars)) = none := findSplit2_join_none _ hcond
  have hne : (joinColon (ws.map hexChars)).isEmpty = false := by
    apply isEmpty_false_of_ne_nil
    cases ws with
    | nil => simp at hws8
    | cons w rest =>
      rw [List.map_cons]
      obtain ⟨X, hX⟩ := joinColon_cons_ex (hexChars w) (rest.map hexChars)
      rw [hX]
      intro he
      exact hexChars_ne_nil w (List.append_eq_nil.1 he).1
  simp only [pton6, hne, Bool.false_eq_true, if_false, hfs,
    tokensOf_joinColon _ hcond, wordsOfToks_map_hex ws true hlt,
    Option.bind_eq_bind, Option.some_bind, List.length_map]
  rw [if_pos hws8]
  rfl

theorem pton6_two_piece (ws : List Nat) (b l : Nat)
    (hlt : ∀ w ∈ ws, w < 65536)
    (hws8 : ws.length = 8) (hl : 2 ≤ l) (hbl : b + l ≤ 8)
    (hzd : ws = ws.take b ++ List.replicate l 0 ++ ws.drop (b + l)) :
    pton6 (joinColon ((ws.take b).map hexChars) ++ ':' :: ':' ::
      joinColon ((ws.drop (b + l)).map hexChars)) = some (ofWords16 ws) := by
  have hltH : ∀ w ∈ ws.take b, w < 65536 := fun w hw => hlt w (List.take_subset _ _ hw)
  have hltT : ∀ w ∈ ws.drop (b + l), w < 65536 := fun w hw => hlt w (List.drop_subset _ _ hw)
  have hcondH : ∀ t ∈ (ws.take b).map hexChars, t ≠ [] ∧ ¬ ':' ∈ t := by
    intro t ht
    rw [List.mem_map] at ht
    obtain ⟨w, hwmem, rfl⟩ := ht
    exact ⟨hexChars_ne_nil w, not_colon_mem_hexChars w (hltH w hwmem)⟩
  have hcondT : ∀ t ∈ (ws.drop (b + l)).map hexChars, t ≠ [] ∧ ¬ ':' ∈ t := by
    intro t ht
    rw [List.mem_map] at ht
    obtain ⟨w, hwmem, rfl⟩ := ht
    exact ⟨hexChars_ne_nil w, not_colon_mem_hexChars w (hltT w hwmem)⟩
  have hsplit : findSplit2 (joinColon ((ws.take b).map hexChars) ++ ':' :: ':' ::
      joinColon ((ws.drop (b + l)).map hexChars)) =
      some (joinColon ((ws.take b).map hexChars),
        joinColon ((ws.drop (b + l)).map hexChars)) :=
    findSplit2_join2 _ _ hcondH
  have hTn : findSplit2 (joinColon ((ws.drop (b + l)).map hexChars)) = none :=
    findSplit2_join_none _ hcondT
  have hne : (joinColon ((ws.take b).map hexChars) ++ ':' :: ':' ::
      joinColon ((ws.drop (b + l)).map hexChars)).isEmpty = false := by
    apply isEmpty_false_of_ne_nil
    intro he
    rcases List.append_eq_nil.1 he with ⟨_, h2⟩
    cases h2
  simp only [pton6, hne, Bool.false_eq_true, if_false, hsplit, hTn, Option.isSome_none,
    tokensOf_joinColon _ hcondH, tokensOf_joinColon _ hcondT,
    wordsOfToks_map_hex _ false hltH, wordsOfToks_map_hex _ true hltT,
    Option.bind_eq_bind, Option.some_bind, List.length_take, List.length_drop, hws8]
  rw [if_pos (by omega : min b 8 + (8 - (b + l)) ≤ 7)]
  have hrep : 8 - (min b 8 + (8 - (b + l))) = l := by omega
  rw [hrep, ← hzd]
  rfl

theorem pton6_embed_quad (ws : List Nat) (x y : Nat)
    (hxy : ws = List.replicate 6 0 ++ [x, y]) (hx : x < 65536) (hy : y < 65536) :
    pton6 (':' :: ':' :: ntop4 (x * 65536 + y)) = some (ofWords16 ws) := by
  have hv : x * 65536 + y < 4294967296 := by omega
  have hTn : findSplit2 (ntop4 (x * 65536 + y)) = none :=
    findSplit2_cf_none _ (not_colon_mem_ntop4 _)
  have hsplit : findSplit2 (':' :: ':' :: ntop4 (x * 65536 + y)) =
      some ([], ntop4 (x * 65536 + y)) := rfl
  have htokT : tokensOf (ntop4 (x * 65536 + y)) = some [ntop4 (x * 65536 + y)] := by
    rw [tokensOf]
    rw [if_neg (by simp [isEmpty_false_of_ne_nil _ (ntop4_ne_nil _)])]
    rw [splitOnC_sep_free ':' _ (not_colon_mem_ntop4 _)]
    rw [if_neg (by simp [isEmpty_false_of_ne_nil _ (ntop4_ne_nil _)])]
  have hdot : (ntop4 (x * 65536 + y)).contains '.' = true := by
    rw [ntop4_eq_joinSep]
    have hj : joinSep '.' [decChars ((x * 65536 + y) / 16777216 % 256),
        decChars ((x * 65536 + y) / 65536 % 256), decChars ((x * 65536 + y) / 256 % 256),
        decChars ((x * 65536 + y) % 256)] =
        decChars ((x * 65536 + y) / 16777216 % 256) ++ '.' ::
        joinSep '.' [decChars ((x * 65536 + y) / 65536 % 256),
          decChars ((x * 65536 + y) / 256 % 256), decChars ((x * 65536 + y) % 256)] := rfl
    rw [hj]
    simp [List.contains]
  have hwT : wordsOfToks [ntop4 (x * 65536 + y)] true =
      some [(x * 65536 + y) / 65536, (x * 65536 + y) % 65536] := by
    rw [wordsOfToks]
    rw [hdot]
    simp only [Bool.and_true, if_true]
    rw [pton4_ntop4 _ hv]
    rfl
  have hqx : (x * 65536 + y) / 65536 = x := by omega
  have hqy : (x * 65536 + y) % 65536 = y := by omega
  simp only [pton6, List.isEmpty_cons, Bool.false_eq_true, if_false, hsplit, hTn,
    Option.isSome_none, hwT, Option.bind_eq_bind, Option.some_bind]
  rw [show tokensOf [] = some [] from rfl]
  simp only [Option.some_bind]
  rw [show wordsOfToks ([] : List (List Char)) false = some [] from rfl]
  simp only [htokT, Option.some_bind, hwT, List.length_nil, List.length_cons]
  rw [if_pos (by omega : (0 : Nat) + (0 + 1 + 1) ≤ 7)]
  rw [hqx, hqy, hxy]
  rfl

theorem pton6_embed_ffff (ws : List Nat) (x y : Nat)
    (hxy : ws = List.replicate 5 0 ++ [65535, x, y]) (hx : x < 65536) (hy : y < 65536) :
    pton6 (':' :: ':' :: hexChars 65535 ++ ':' :: ntop4 (x * 65536 + y)) =
      some (ofWords16 ws) := by
  have hv : x * 65536 + y < 4294967296 := by omega
  have hnc : ¬ ':' ∈ hexChars 65535 := not_colon_mem_hexChars 65535 (by omega)
  have hT4n : findSplit2 (ntop4 (x * 65536 + y)) = none :=
    findSplit2_cf_none _ (not_colon_mem_ntop4 _)
  have hTn : findSplit2 (hexChars 65535 ++ ':' :: ntop4 (x * 65536 + y)) = none := by
    rw [findSplit2_cf_append _ _ hnc]
    rw [findSplit2_cons ':' _ (Or.inr (fun z' heq =>
      not_colon_mem_ntop4 (x * 65536 + y) (by rw [heq]; exact List.mem_cons_self _ _)))]
    rw [hT4n]
    rfl
  have hsplit : findSplit2 (':' :: ':' :: hexChars 65535 ++ ':' :: ntop4 (x * 65536 + y)) =
      some ([], hexChars 65535 ++ ':' :: ntop4 (x * 65536 + y)) := rfl
  have htokT : tokensOf (hexChars 65535 ++ ':' :: ntop4 (x * 65536 + y)) =
      some [hexChars 65535, ntop4 (x * 65536 + y)] := by
    rw [tokensOf]
    rw [if_neg ?hne]
    case hne =>
      simp only [List.isEmpty_iff]
      intro he
      exact hexChars_ne_nil 65535 (List.append_eq_nil.1 he).1
    rw [splitOnC_append_sep ':' _ _ hnc, splitOnC_sep_free ':' _ (not_colon_mem_ntop4 _)]
    rw [if_neg ?hany]
    case hany =>
      simp only [List.any_cons, List.any_nil, Bool.or_false, Bool.or_eq_true]
      rintro (h1 | h1)
      · exact hexChars_ne_nil 65535 (by rwa [List.isEmpty_iff] at h1)
      · exact ntop4_ne_nil _ (by rwa [List.isEmpty_iff] at h1)
  have hdot : (ntop4 (x * 65536 + y)).contains '.' = true := by
    rw [ntop4_eq_joinSep]
    have hj : joinSep '.' [decChars ((x * 65536 + y) / 16777216 % 256),
        decChars ((x * 65536 + y) / 65536 % 256), decChars ((x * 65536 + y) / 256 % 256),
        decChars ((x * 65536 + y) % 256)] =
        decChars ((x * 65536 + y) / 16777216 % 256) ++ '.' ::
        joinSep '.' [decChars ((x * 65536 + y) / 65536 % 256),
          decChars ((x * 65536 + y) / 256 % 256), decChars ((x * 65536 + y) % 256)] := rfl
    rw [hj]
    simp [List.contains]
  have hwT : wordsOfToks [hexChars 65535, ntop4 (x * 65536 + y)] true =
      some [65535, (x * 65536 + y) / 65536, (x * 65536 + y) % 65536] := by
    rw [wordsOfToks]
    rw [parseHexTok_hexChars 65535 (by omega)]
    have hlast : wordsOfToks [ntop4 (x * 65536 + y)] true =
        some [(x * 65536 + y) / 65536, (x * 65536 + y) % 65536] := by
      rw [wordsOfToks]
      rw [hdot]
      simp only [Bool.and_true, if_true]
      rw [pton4_ntop4 _ hv]
      rfl
    rw [hlast]
    rfl
  have hqx : (x * 65536 + y) / 65536 = x := by omega
  have hqy : (x * 65536 + y) % 65536 = y := by omega
  have hne : (':' :: ':' :: hexChars 65535 ++ ':' ::
      ntop4 (x * 65536 + y)).isEmpty = false := rfl
  simp only [pton6, hne, Bool.false_eq_true, if_false, hsplit, hTn, Option.isSome_none,
    htokT, hwT, Option.bind_eq_bind, Option.some_bind]
  rw [show tokensOf [] = some [] from rfl]
  simp only [Option.some_bind]
  rw [show wordsOfToks ([] : List (List Char)) false = some [] from rfl]
  simp only [htokT, Option.some_bind, hwT, List.length_nil, List.length_cons]
  rw [if_pos (by omega : (0 : Nat) + (0 + 1 + 1 + 1) ≤ 7)]
  rw [hqx, hqy, hxy]
  rfl

theorem m6hexStep_join (t r : List Char) (hne : t ≠ []) (hlen : t.length ≤ 4)
    (hhex : t.all isHexD = true) :
    m6hexStep (t ++ ':' :: r) t.length = some r := by
  have hcond : t.length ≤ (t ++ ':' :: r).length ∧
      ((t ++ ':' :: r).take t.length).all isHexD = true ∧
      ((t ++ ':' :: r).drop t.length).head? = some ':' := by
    refine ⟨by rw [List.length_append, List.length_cons]; omega, ?_, ?_⟩
    · rw [List.take_left]
      exact hhex
    · rw [List.drop_left]
      rfl
  simp only [m6hexStep, if_pos hcond]
  congr 1
  have h2 := List.drop_left (t ++ [':']) r
  rw [List.length_append] at h2
  simpa using h2

theorem m6go_tail_colon (f rem : Nat) (hf : 1 ≤ f) :
    m6go f [':'] rem true = true := by
  cases f with
  | zero => omega
  | succ f' =>
    simp only [m6go]
    have h : m6tailOk [':'] true = true := by decide
    rw [h]
    simp

theorem m6go_join_hex (ts : List (List Char)) :
    ∀ (fuel rem : Nat), (∀ t ∈ ts, t ≠ [] ∧ t.length ≤ 4 ∧ t.all isHexD = true) →
    ts ≠ [] → ts.length ≤ rem + 1 → (joinColon ts).length < fuel →
    m6go fuel (joinColon ts) rem true = true := by
  induction ts with
  | nil => intro _ _ _ hne _ _; exact absurd rfl hne
  | cons t ts' ih =>
    intro fuel rem hcond _ hrem hfuel
    obtain ⟨hne, hlen, hhex⟩ := hcond t (List.mem_cons_self _ _)
    cases ts' with
    | nil =>
      have hj : joinColon [t] = t := by simp [joinColon, joinSep]
      rw [hj] at hfuel ⊢
      cases fuel with
      | zero => omega
      | succ f =>
        simp only [m6go]
        have htail : m6tailOk t true = true := by
          simp [m6tailOk, isEmpty_false_of_ne_nil t hne, hlen, hhex]
        rw [htail]
        simp
    | cons t2 ts'' =>
      have hj : joinColon (t :: t2 :: ts'') = t ++ ':' :: joinColon (t2 :: ts'') := rfl
      rw [hj] at hfuel ⊢
      cases fuel with
      | zero => omega
      | succ f =>
        have hstep := m6hexStep_join t (joinColon (t2 :: ts'')) hne hlen hhex
        have hrec : m6go f (joinColon (t2 :: ts'')) (rem - 1) true = true := by
          apply ih f (rem - 1) (fun u hu => hcond u (List.mem_cons_of_mem _ hu)) (by simp)
          · simp only [List.length_cons] at hrem ⊢
            omega
          · rw [List.length_append, List.length_cons] at hfuel
            have h1 : 0 < t.length := List.length_pos.2 hne
            omega
        simp only [m6go]
        rw [Bool.or_eq_true]
        refine Or.inr ?_
        rw [Bool.and_eq_true]
        refine ⟨decide_eq_true ?_, ?_⟩
        · simp only [List.length_cons] at hrem
          omega
        · rw [Bool.or_eq_true]
          refine Or.inr ?_
          rw [List.any_eq_true]
          refine ⟨t.length, ?_, ?_⟩
          · simp only [List.mem_cons, List.not_mem_nil, or_false]
            have h1 : 0 < t.length := List.length_pos.2 hne
            omega
          · simp only [hstep]
            rw [Bool.or_eq_true]
            exact Or.inl hrec

theorem m6go_colon_join (ts : List (List Char)) (fuel rem : Nat)
    (hcond : ∀ t ∈ ts, t ≠ [] ∧ t.length ≤ 4 ∧ t.all isHexD = true)
    (hrem : ts.length ≤ rem) (hfuel : (joinColon ts).length + 1 < fuel) :
    m6go fuel (':' :: joinColon ts) rem true = true := by
  cases ts with
  | nil => exact m6go_tail_colon fuel rem (by omega)
  | cons t ts' =>
    cases fuel with
    | zero => omega
    | succ f =>
      simp only [m6go]
      rw [Bool.or_eq_true]
      refine Or.inr ?_
      rw [Bool.and_eq_true]
      refine ⟨decide_eq_true ?_, ?_⟩
      · simp only [List.length_cons] at hrem
        omega
      rw [Bool.or_eq_true]
      left
      rw [Bool.and_eq_true]
      refine ⟨decide_eq_true rfl, ?_⟩
      show m6go f (joinColon (t :: ts')) (rem - 1) true = true
      apply m6go_join_hex (t :: ts') f (rem - 1) hcond (by simp)
      · simp only [List.length_cons] at hrem ⊢
        omega
      · omega

theorem m6go_join_two (hs : List (List Char)) :
    ∀ (ts : List (List Char)) (fuel rem : Nat) (started : Bool),
    (∀ t ∈ hs, t ≠ [] ∧ t.length ≤ 4 ∧ t.all isHexD = true) →
    (∀ t ∈ ts, t ≠ [] ∧ t.length ≤ 4 ∧ t.all isHexD = true) →
    hs.length + ts.length + 1 ≤ rem →
    (joinColon hs ++ ':' :: ':' :: joinColon ts).length < fuel →
    m6go fuel (joinColon hs ++ ':' :: ':' :: joinColon ts) rem started = true := by
  induction hs with
  | nil =>
    intro ts fuel rem started _ hts hrem hfuel
    rw [show joinColon [] = [] from rfl, List.nil_append] at hfuel ⊢
    cases fuel with
    | zero => omega
    | succ f =>
      simp only [m6go]
      rw [Bool.or_eq_true]
      refine Or.inr ?_
      rw [Bool.and_eq_true]
      refine ⟨decide_eq_true (by omega), ?_⟩
      rw [Bool.or_eq_true]
      left
      rw [Bool.and_eq_true]
      refine ⟨decide_eq_true rfl, ?_⟩
      show m6go f (':' :: joinColon ts) (rem - 1) true = true
      apply m6go_colon_join ts f (rem - 1) hts (by simp only [List.length_nil] at hrem; omega)
      rw [List.length_cons, List.length_cons] at hfuel
      omega
  | cons h1 hr ih =>
    intro ts fuel rem started hhs hts hrem hfuel
    obtain ⟨hne, hlen, hhex⟩ := hhs h1 (List.mem_cons_self _ _)
    cases hr with
    | nil =>
      have hj : joinColon [h1] = h1 := by simp [joinColon, joinSep]
      rw [hj] at hfuel ⊢
      cases fuel with
      | zero => omega
      | succ f =>
        have hstep := m6hexStep_join h1 (':' :: joinColon ts) hne hlen hhex
        simp only [m6go]
        rw [Bool.or_eq_true]
        refine Or.inr ?_
        rw [Bool.and_eq_true]
        refine ⟨decide_eq_true ?_, ?_⟩
        · simp only [List.length_cons] at hrem
          omega
        rw [Bool.or_eq_true]
        refine Or.inr ?_
        rw [List.any_eq_true]
        refine ⟨h1.length, ?_, ?_⟩
        · simp only [List.mem_cons, List.not_mem_nil, or_false]
          have h1p : 0 < h1.length := List.length_pos.2 hne
          omega
        · simp only [hstep]
          rw [Bool.or_eq_true]
          left
          apply m6go_colon_join ts f (rem - 1) hts ?_ ?_
          · simp only [List.length_cons] at hrem
            omega
          · rw [List.length_append, List.length_cons, List.length_cons] at hfuel
            have h1p : 0 < h1.length := List.length_pos.2 hne
            omega
    | cons h2 hr' =>
      have hj : joinColon (h1 :: h2 :: hr') = h1 ++ ':' :: joinColon (h2 :: hr') := rfl
      rw [hj, List.append_assoc, List.cons_append] at hfuel ⊢
      cases fuel with
      | zero => omega
      | succ f =>
        have hstep := m6hexStep_join h1
          (joinColon (h2 :: hr') ++ ':' :: ':' :: joinColon ts) hne hlen hhex
        simp only [m6go]
        rw [Bool.or_eq_true]
        refine Or.inr ?_
        rw [Bool.and_eq_true]
        refine ⟨decide_eq_true ?_, ?_⟩
        · simp only [List.length_cons] at hrem
          omega
        rw [Bool.or_eq_true]
        refine Or.inr ?_
        rw [List.any_eq_true]
        refine ⟨h1.length, ?_, ?_⟩
        · simp only [List.mem_cons, List.not_mem_nil, or_false]
          have h1p : 0 < h1.length := List.length_pos.2 hne
          omega
        · simp only [hstep]
          rw [Bool.or_eq_true]
          left
          apply ih ts f (rem - 1) true (fun u hu => hhs u (List.mem_cons_of_mem _ hu)) hts
          · simp only [List.length_cons] at hrem ⊢
            omega
          · rw [List.length_append, List.length_cons] at hfuel
            have h1p : 0 < h1.length := List.length_pos.2 hne
            omega

theorem ip6REmatch_one (ts : List (List Char))
    (hcond : ∀ t ∈ ts, t ≠ [] ∧ t.length ≤ 4 ∧ t.all isHexD = true)
    (hlen8 : ts.length = 8) :
    ip6REmatch (joinColon ts) = true := by
  cases ts with
  | nil => simp at hlen8
  | cons t rest =>
    cases rest with
    | nil => simp at hlen8
    | cons r1 rs =>
      obtain ⟨hne, hlen, hhex⟩ := hcond t (List.mem_cons_self _ _)
      have hj : joinColon (t :: r1 :: rs) = t ++ ':' :: joinColon (r1 :: rs) := rfl
      rw [ip6REmatch, hj]
      have hstep := m6hexStep_join t (joinColon (r1 :: rs)) hne hlen hhex
      have hflen : (t ++ ':' :: joinColon (r1 :: rs)).length =
          t.length + 1 + (joinColon (r1 :: rs)).length := by
        rw [List.length_append, List.length_cons]
        omega
      rw [hflen]
      have h1p : 0 < t.length := List.length_pos.2 hne
      rw [show t.length + 1 + (joinColon (r1 :: rs)).length + 1 =
        (t.length + (joinColon (r1 :: rs)).length + 1) + 1 from by omega]
      generalize hF : t.length + (joinColon (r1 :: rs)).length + 1 = F
      simp only [m6go]
      rw [Bool.or_eq_true]
      refine Or.inr ?_
      rw [Bool.and_eq_true]
      refine ⟨decide_eq_true (by omega), ?_⟩
      rw [Bool.or_eq_true]
      refine Or.inr ?_
      rw [List.any_eq_true]
      refine ⟨t.length, ?_, ?_⟩
      · simp only [List.mem_cons, List.not_mem_nil, or_false]
        omega
      · simp only [hstep]
        rw [Bool.or_eq_true]
        left
        apply m6go_join_hex (r1 :: rs) _ 6 (fun u hu => hcond u (List.mem_cons_of_mem _ hu))
          (by simp)
        · simp only [List.length_cons] at hlen8 ⊢
          omega
        · omega

theorem ip6REmatch_two (hs ts : List (List Char))
    (hhs : ∀ t ∈ hs, t ≠ [] ∧ t.length ≤ 4 ∧ t.all isHexD = true)
    (hts : ∀ t ∈ ts, t ≠ [] ∧ t.length ≤ 4 ∧ t.all isHexD = true)
    (hbud : hs.length + ts.length + 1 ≤ 7) :
    ip6REmatch (joinColon hs ++ ':' :: ':' :: joinColon ts) = true := by
  rw [ip6REmatch]
  exact m6go_join_two hs ts _ 7 false hhs hts hbud (by omega)

theorem pton6_ntop6 (a : Nat)
    (ha : a < 340282366920938463463374607431768211456) :
    pton6 (ntop6 a) = some a := by
  have hlt : ∀ w ∈ ipWords a, w < 65536 := toWords16_lt 8 a
  have hlen8 : (ipWords a).length = 8 := ipWords_length a
  have hof : ofWords16 (ipWords a) = a := ofWords16_toWords16 8 a (by
    calc a < 340282366920938463463374607431768211456 := ha
    _ = 65536 ^ 8 := by norm_num)
  cases hbr : bestRun (ipWords a) with
  | none =>
    rw [ntop6_shape_norun a hbr, pton6_one_piece (ipWords a) hlt hlen8, hof]
  | some bl =>
    obtain ⟨b, l⟩ := bl
    obtain ⟨hl2, hbl8', hz⟩ := bestRun_spec _ _ _ hbr
    have hbl8 : b + l ≤ 8 := by rw [hlen8] at hbl8'; exact hbl8'
    have hzd := zeros_decomp (ipWords a) b l hbl8' hz
    by_cases hemb : embedClause (ipWords a) (some (b, l)) = true
    · simp only [embedClause, Bool.and_eq_true, Bool.or_eq_true, decide_eq_true_eq,
        bne_iff_ne] at hemb
      obtain ⟨hb0, hlcases⟩ := hemb
      subst hb0
      rcases hlcases with (hl6 | ⟨hl7, _⟩) | ⟨hl5, hw5⟩
      · subst hl6
        obtain ⟨x, y, hxy⟩ : ∃ x y, (ipWords a).drop 6 = [x, y] := by
          rw [← List.length_eq_two, List.length_drop, hlen8]
        have hgx : (ipWords a).getD 6 0 = x := (drop_cons_facts _ _ _ _ hxy).2.1
        have hdrop7 : (ipWords a).drop 7 = [y] := (drop_cons_facts _ _ _ _ hxy).2.2
        have hgy : (ipWords a).getD 7 0 = y := (drop_cons_facts _ _ _ _ hdrop7).2.1
        have hx : x < 65536 := hlt x (List.drop_subset _ _
          (by rw [hxy]; exact List.mem_cons_self _ _))
        have hy : y < 65536 := hlt y (List.drop_subset _ _
          (by rw [hxy]; exact List.mem_cons_of_mem _ (List.mem_cons_self _ _)))
        rw [List.take_zero, List.nil_append, Nat.zero_add, hxy] at hzd
        rw [ntop6_shape_embed6 a hbr, hgx, hgy,
          pton6_embed_quad (ipWords a) x y hzd hx hy, hof]
      · subst hl7
        rw [ntop6_shape_run07 a hbr]
        have h2p := pton6_two_piece (ipWords a) 0 7 hlt hlen8 (by omega) (by omega) hzd
        simp only [List.take_zero, List.map_nil, Nat.zero_add] at h2p
        rw [show joinColon ([] : List (List Char)) = [] from rfl, List.nil_append] at h2p
        rw [h2p, hof]
      · subst hl5
        obtain ⟨x5, rest5, hx5r⟩ : ∃ x5 rest5, (ipWords a).drop 5 = x5 :: rest5 := by
          cases hd : (ipWords a).drop 5 with
          | nil =>
            exfalso
            exact drop_ne_nil_of_len _ _ (by rw [hlen8]; omega) hd
          | cons u v => exact ⟨u, v, rfl⟩
        obtain ⟨y, z, hyz⟩ : ∃ y z, rest5 = [y, z] := by
          rw [← List.length_eq_two]
          have := congrArg List.length hx5r
          rw [List.length_drop, hlen8] at this
          simp only [List.length_cons] at this
          omega
        rw [hyz] at hx5r
        have hx5 : x5 = 65535 := by
          have := (drop_cons_facts _ _ _ _ hx5r).2.1
          rw [hw5] at this
          omega
        rw [hx5] at hx5r
        have hdrop6 : (ipWords a).drop 6 = [y, z] := (drop_cons_facts _ _ _ _ hx5r).2.2
        have hgy : (ipWords a).getD 6 0 = y := (drop_cons_facts _ _ _ _ hdrop6).2.1
        have hdrop7 : (ipWords a).drop 7 = [z] := (drop_cons_facts _ _ _ _ hdrop6).2.2
        have hgz : (ipWords a).getD 7 0 = z := (drop_cons_facts _ _ _ _ hdrop7).2.1
        have hy : y < 65536 := hlt y (List.drop_subset _ _
          (by rw [hdrop6]; exact List.mem_cons_self _ _))
        have hz' : z < 65536 := hlt z (List.drop_subset _ _
          (by rw [hdrop7]; exact List.mem_cons_self _ _))
        rw [List.take_zero, List.nil_append, Nat.zero_add, hx5r] at hzd
        rw [ntop6_shape_embed5 a hbr hw5, hgy, hgz,
          pton6_embed_ffff (ipWords a) y z hzd hy hz', hof]
    · have hembf : embedClause (ipWords a) (some (b, l)) = false := by
        cases hE : embedClause (ipWords a) (some (b, l)) with
        | false => rfl
        | true => exact absurd hE hemb
      rw [ntop6_shape_run a b l hbr hembf,
        pton6_two_piece (ipWords a) b l hlt hlen8 hl2 hbl8 hzd, hof]

theorem hexDigitVal_lt16 (c : Char) : hexDigitVal c < 16 := by
  unfold hexDigitVal isDigitC
  split
  · rename_i h
    simp only [Bool.and_eq_true, decide_eq_true_eq] at h
    omega
  split
  · rename_i h
    simp only [Bool.and_eq_true, decide_eq_true_eq] at h
    omega
  split
  · rename_i h
    simp only [Bool.and_eq_true, decide_eq_true_eq] at h
    omega
  · omega

theorem hexVal_lt (s : List Char) (hlen : s.length ≤ 4) : hexVal s < 65536 := by
  have key : ∀ (l : List Char) (acc : Nat),
      l.foldl (fun acc c => acc * 16 + hexDigitVal c) acc < 16 ^ l.length * (acc + 1) := by
    intro l
    induction l with
    | nil => intro acc; simp
    | cons c t ih =>
      intro acc
      have hd : hexDigitVal c < 16 := hexDigitVal_lt16 c
      calc t.foldl (fun acc c => acc * 16 + hexDigitVal c) (acc * 16 + hexDigitVal c)
          < 16 ^ t.length * (acc * 16 + hexDigitVal c + 1) := ih _
        _ ≤ 16 ^ t.length * (16 * (acc + 1)) := Nat.mul_le_mul_left _ (by omega)
        _ = 16 ^ (c :: t).length * (acc + 1) := by
            rw [List.length_cons, pow_succ]
            ring
  have h1 : hexVal s < 16 ^ s.length := by
    have := key s 0
    simpa [hexVal] using this
  have h2 : (16 : Nat) ^ s.length ≤ 16 ^ 4 := Nat.pow_le_pow_right (by omega) hlen
  calc hexVal s < 16 ^ s.length := h1
    _ ≤ 16 ^ 4 := h2
    _ = 65536 := by norm_num

theorem parseHexTok_lt (t : List Char) (w : Nat) (h : parseHexTok t = some w) :
    w < 65536 := by
  unfold parseHexTok at h
  split at h
  · rename_i hc
    simp only [Bool.and_eq_true, decide_eq_true_eq] at hc
    injection h with h'
    rw [← h']
    exact hexVal_lt t hc.1.2
  · cases h

theorem pton4_lt (s : List Char) (a : Nat) (h : pton4 s = some a) : a < 4294967296 := by
  unfold pton4 at h
  split at h
  · split at h
    · rename_i t1 t2 t3 t4 heq hcond
      simp only [Bool.and_eq_true] at hcond
      obtain ⟨⟨⟨h1, h2⟩, h3⟩, h4⟩ := hcond
      have b1 : decVal t1 ≤ 255 := by
        simp only [octetOk, Bool.and_eq_true, decide_eq_true_eq] at h1
        exact h1.2
      have b2 : decVal t2 ≤ 255 := by
        simp only [octetOk, Bool.and_eq_true, decide_eq_true_eq] at h2
        exact h2.2
      have b3 : decVal t3 ≤ 255 := by
        simp only [octetOk, Bool.and_eq_true, decide_eq_true_eq] at h3
        exact h3.2
      have b4 : decVal t4 ≤ 255 := by
        simp only [octetOk, Bool.and_eq_true, decide_eq_true_eq] at h4
        exact h4.2
      injection h with h'
      omega
    · cases h
  · cases h

theorem wordsOfToks_lt (ts : List (List Char)) (embOk : Bool) (ws : List Nat)
    (h : wordsOfToks ts embOk = some ws) : ∀ w ∈ ws, w < 65536 := by
  induction ts generalizing ws with
  | nil =>
    unfold wordsOfToks at h
    injection h with h'
    subst h'
    simp
  | cons t ts' ih =>
    cases ts' with
    | nil =>
      unfold wordsOfToks at h
      split at h
      · cases hp : pton4 t with
        | none => rw [hp] at h; cases h
        | some v =>
          rw [hp] at h
          have h' : some [v / 65536, v % 65536] = some ws := h
          injection h' with h''
          subst h''
          have hb := pton4_lt t v hp
          intro w hw
          simp only [List.mem_cons, List.not_mem_nil, or_false] at hw
          rcases hw with rfl | rfl <;> omega
      · cases hp : parseHexTok t with
        | none => rw [hp] at h; cases h
        | some w0 =>
          rw [hp] at h
          have h' : some [w0] = some ws := h
          injection h' with h''
          subst h''
          intro w hw
          simp only [List.mem_cons, List.not_mem_nil, or_false] at hw
          subst hw
          exact parseHexTok_lt t w hp
    | cons t2 ts'' =>
      unfold wordsOfToks at h
      cases hp : parseHexTok t with
      | none =>
        rw [hp] at h
        simp only [Option.bind_eq_bind, Option.none_bind] at h
        cases h
      | some w0 =>
        rw [hp] at h
        simp only [Option.bind_eq_bind, Option.some_bind] at h
        cases hrest : wordsOfToks (t2 :: ts'') embOk with
        | none =>
          rw [hrest] at h
          simp only [Option.none_bind] at h
          cases h
        | some rest =>
          rw [hrest] at h
          simp only [Option.some_bind] at h
          injection h with h'
          subst h'
          intro w hw
          rcases List.mem_cons.1 hw with rfl | hw'
          · exact parseHexTok_lt t w hp
          · exact ih rest hrest w hw'

theorem pton6_lt (s : List Char) (a : Nat) (h : pton6 s = some a) :
    a < 340282366920938463463374607431768211456 := by
  have h16 : (65536 : Nat) ^ 8 = 340282366920938463463374607431768211456 := by norm_num
  unfold pton6 at h
  split at h
  · cases h
  · split at h
    · rename_i l r heq
      split at h
      · cases h
      · cases htl : tokensOf l with
        | none => rw [htl] at h; simp only [Option.bind_eq_bind, Option.none_bind] at h; cases h
        | some lt =>
          rw [htl] at h
          simp only [Option.bind_eq_bind, Option.some_bind] at h
          cases htr : tokensOf r with
          | none => rw [htr] at h; simp only [Option.none_bind] at h; cases h
          | some rt =>
            rw [htr] at h
            simp only [Option.some_bind] at h
            cases hwl : wordsOfToks lt false with
            | none => rw [hwl] at h; simp only [Option.none_bind] at h; cases h
            | some lw =>
              rw [hwl] at h
              simp only [Option.some_bind] at h
              cases hwr : wordsOfToks rt true with
              | none => rw [hwr] at h; simp only [Option.none_bind] at h; cases h
              | some rw' =>
                rw [hwr] at h
                simp only [Option.some_bind] at h
                split at h
                · rename_i hle
                  injection h with h'
                  subst h'
                  have hall : ∀ w ∈ lw ++ List.replicate (8 - (lw.length + rw'.length)) 0
                      ++ rw', w < 65536 := by
                    intro w hw
                    rcases List.mem_append.1 hw with hw1 | hw2
                    · rcases List.mem_append.1 hw1 with hw3 | hw4
                      · exact wordsOfToks_lt lt false lw hwl w hw3
                      · rw [List.eq_of_mem_replicate hw4]
                        omega
                    · exact wordsOfToks_lt rt true rw' hwr w hw2
                  have hlen : (lw ++ List.replicate (8 - (lw.length + rw'.length)) 0
                      ++ rw').length = 8 := by
                    simp only [List.length_append, List.length_replicate]
                    omega
                  have := ofWords16_lt _ hall
                  rw [hlen, h16] at this
                  exact this
                · cases h
    · cases htl : tokensOf s with
      | none => rw [htl] at h; simp only [Option.bind_eq_bind, Option.none_bind] at h; cases h
      | some ts =>
        rw [htl] at h
        simp only [Option.bind_eq_bind, Option.some_bind] at h
        cases hws : wordsOfToks ts true with
        | none => rw [hws] at h; simp only [Option.none_bind] at h; cases h
        | some ws =>
          rw [hws] at h
          simp only [Option.some_bind] at h
          split at h
          · rename_i hlen
            injection h with h'
            subst h'
            have := ofWords16_lt ws (wordsOfToks_lt ts true ws hws)
            rw [hlen, h16] at this
            exact this
          · cases h

theorem mem_ntop4_chars (a : Nat) (c : Char) (h : c ∈ ntop4 a) :
    isDigitC c = true ∨ c = '.' := by
  rw [ntop4_eq_joinSep] at h
  rcases mem_joinSep '.' _ c h with ⟨t, ht, hct⟩ | hdot
  · left
    have hd : ∃ m, m < 10 ^ 40 ∧ t = decChars m := by
      simp only [List.mem_cons, List.not_mem_nil, or_false] at ht
      rcases ht with h1 | h1 | h1 | h1 <;> exact ⟨_, by omega, h1⟩
    obtain ⟨m, hm40, rfl⟩ := hd
    have hall := decChars_all_digits m hm40
    rw [List.all_eq_true] at hall
    exact hall c hct
  · right
    exact hdot

theorem dot_mem_ntop4 (a : Nat) : '.' ∈ ntop4 a := by
  unfold ntop4
  simp

theorem ip4REmatch_ntop4 (a : Nat) (ha : a < 4294967296) :
    ip4REmatch (ntop4 a) = true := by
  have hsplit : splitOnC '.' (ntop4 a) = [decChars (a / 16777216 % 256),
      decChars (a / 65536 % 256), decChars (a / 256 % 256), decChars (a % 256)] := by
    rw [ntop4_eq_joinSep]
    apply splitOnC_joinSep _ _ (by simp)
    intro t ht
    simp only [List.mem_cons, List.not_mem_nil, or_false] at ht
    rcases ht with h1 | h1 | h1 | h1 <;>
      · rw [h1]
        exact decChars_no_dot _ (by omega)
  have hpart : ∀ m : Nat, m ≤ 255 → ip4Part (decChars m) = true := by
    intro m hm
    have hne := decChars_ne_nil m
    have hlen : (decChars m).length ≤ 3 :=
      digitsAux_length_le 10 40 m 3 (by omega) (by omega) (by omega)
    have hall := decChars_all_digits m (by omega)
    simp [ip4Part, isEmpty_false_of_ne_nil _ hne, hlen, hall]
  unfold ip4REmatch
  rw [hsplit]
  simp only [List.length_cons, List.length_nil, List.all_cons, List.all_nil]
  rw [hpart _ (by omega), hpart _ (by omega), hpart _ (by omega), hpart _ (by omega)]
  simp

theorem isHexD_of_digit (c : Char) (h : isDigitC c = true) : isHexD c = true := by
  unfold isHexD
  rw [h]
  simp

theorem hexChars_len4 (w : Nat) (hw : w < 65536) : (hexChars w).length ≤ 4 :=
  digitsAux_length_le 16 40 w 4 (by omega) (by omega)
    (lt_of_lt_of_eq hw (by norm_num))

theorem mem_ntop6_chars (a : Nat) (c : Char) (h : c ∈ ntop6 a) :
    isHexD c = true ∨ c = ':' ∨ c = '.' := by
  have hlt : ∀ w ∈ ipWords a, w < 65536 := toWords16_lt 8 a
  have htok : ∀ (sub : List Nat), (∀ w ∈ sub, w ∈ ipWords a) →
      c ∈ joinColon (sub.map hexChars) → isHexD c = true ∨ c = ':' ∨ c = '.' := by
    intro sub hsub hc
    rcases mem_joinSep ':' _ c hc with ⟨t, ht, hct⟩ | hcol
    · left
      rw [List.mem_map] at ht
      obtain ⟨w, hwmem, rfl⟩ := ht
      have hall := hexChars_all_hex w (by
        have := hlt w (hsub w hwmem)
        calc w < 65536 := this
          _ ≤ 16 ^ 40 := by norm_num)
      rw [List.all_eq_true] at hall
      exact hall c hct
    · right
      left
      exact hcol
  cases hbr : bestRun (ipWords a) with
  | none =>
    rw [ntop6_shape_norun a hbr] at h
    exact htok _ (fun w hw => hw) h
  | some bl =>
    obtain ⟨b, l⟩ := bl
    by_cases hemb : embedClause (ipWords a) (some (b, l)) = true
    · simp only [embedClause, Bool.and_eq_true, Bool.or_eq_true, decide_eq_true_eq,
        bne_iff_ne] at hemb
      obtain ⟨hb0, hlcases⟩ := hemb
      subst hb0
      rcases hlcases with (hl6 | ⟨hl7, _⟩) | ⟨hl5, hw5⟩
      · subst hl6
        rw [ntop6_shape_embed6 a hbr] at h
        simp only [List.mem_cons] at h
        rcases h with hc | hc | h
        · right; left; exact hc
        · right; left; exact hc
        · rcases mem_ntop4_chars _ c h with hd | hd
          · exact Or.inl (isHexD_of_digit c hd)
          · exact Or.inr (Or.inr hd)
      · subst hl7
        rw [ntop6_shape_run07 a hbr] at h
        simp only [List.mem_cons] at h
        rcases h with hc | hc | h
        · right; left; exact hc
        · right; left; exact hc
        · exact htok _ (fun w hw => List.drop_subset _ _ hw) h
      · subst hl5
        rw [ntop6_shape_embed5 a hbr hw5] at h
        rcases List.mem_append.1 h with h1 | h1
        · rw [List.mem_cons, List.mem_cons] at h1
          rcases h1 with hc | hc | h2
          · right; left; exact hc
          · right; left; exact hc
          · left
            have hall := hexChars_all_hex 65535 (by norm_num)
            rw [List.all_eq_true] at hall
            exact hall c h2
        · rcases List.mem_cons.1 h1 with hc | h2
          · right; left; exact hc
          · rcases mem_ntop4_chars _ c h2 with hd | hd
            · exact Or.inl (isHexD_of_digit c hd)
            · exact Or.inr (Or.inr hd)
    · have hembf : embedClause (ipWords a) (some (b, l)) = false := by
        cases hE : embedClause (ipWords a) (some (b, l)) with
        | false => rfl
        | true => exact absurd hE hemb
      rw [ntop6_shape_run a b l hbr hembf] at h
      rcases List.mem_append.1 h with h1 | h1
      · exact htok _ (fun w hw => List.take_subset _ _ hw) h1
      · rcases List.mem_cons.1 h1 with rfl | h2
        · right; left; rfl
        · rcases List.mem_cons.1 h2 with rfl | h3
          · right; left; rfl
          · exact htok _ (fun w hw => List.drop_subset _ _ hw) h3

theorem colon_mem_ntop6 (a : Nat) : ':' ∈ ntop6 a := by
  cases hbr : bestRun (ipWords a) with
  | none =>
    rw [ntop6_shape_norun a hbr]
    obtain ⟨w1, w2, rest, hws⟩ : ∃ w1 w2 rest, ipWords a = w1 :: w2 :: rest := by
      have hlen8 := ipWords_length a
      cases hw : ipWords a with
      | nil => rw [hw] at hlen8; simp at hlen8
      | cons w1 tl =>
        cases htl : tl with
        | nil => rw [hw, htl] at hlen8; simp at hlen8
        | cons w2 rest => exact ⟨w1, w2, rest, rfl⟩
    rw [hws]
    have hj : joinColon ((w1 :: w2 :: rest).map hexChars) =
        hexChars w1 ++ ':' :: joinColon ((w2 :: rest).map hexChars) := rfl
    rw [hj]
    simp
  | some bl =>
    obtain ⟨b, l⟩ := bl
    by_cases hemb : embedClause (ipWords a) (some (b, l)) = true
    · simp only [embedClause, Bool.and_eq_true, Bool.or_eq_true, decide_eq_true_eq,
        bne_iff_ne] at hemb
      obtain ⟨hb0, hlcases⟩ := hemb
      subst hb0
      rcases hlcases with (hl6 | ⟨hl7, _⟩) | ⟨hl5, hw5⟩
      · subst hl6
        rw [ntop6_shape_embed6 a hbr]
        simp
      · subst hl7
        rw [ntop6_shape_run07 a hbr]
        simp
      · subst hl5
        rw [ntop6_shape_embed5 a hbr hw5]
        simp
    · have hembf : embedClause (ipWords a) (some (b, l)) = false := by
        cases hE : embedClause (ipWords a) (some (b, l)) with
        | false => rfl
        | true => exact absurd hE hemb
      rw [ntop6_shape_run a b l hbr hembf]
      simp

theorem octetOk_false_of_colon (t : List Char) (h : ':' ∈ t) : octetOk t = false := by
  have hall : t.all isDigitC = false := by
    rw [List.all_eq_false]
    exact ⟨':', h, by decide⟩
  unfold octetOk
  rw [hall]
  simp

theorem pton4_none_of_colon (s : List Char) (h : ':' ∈ s) : pton4 s = none := by
  have hparts : ∃ t ∈ splitOnC '.' s, ':' ∈ t := by
    rw [← joinSep_splitOnC '.' s] at h
    rcases mem_joinSep '.' _ ':' h with ⟨t, ht, hct⟩ | hdot
    · exact ⟨t, ht, hct⟩
    · cases hdot
  unfold pton4
  split
  · rename_i t1 t2 t3 t4 heq
    rw [heq] at hparts
    obtain ⟨t, ht, hct⟩ := hparts
    simp only [List.mem_cons, List.not_mem_nil, or_false] at ht
    rcases ht with rfl | rfl | rfl | rfl <;>
      · rw [octetOk_false_of_colon _ hct]
        simp
  · rfl

theorem ip6REmatch_ntop6_nodot (a : Nat) (hnd : ¬ '.' ∈ ntop6 a) :
    ip6REmatch (ntop6 a) = true := by
  have hlt : ∀ w ∈ ipWords a, w < 65536 := toWords16_lt 8 a
  have hlen8 := ipWords_length a
  have htok : ∀ (sub : List Nat), (∀ w ∈ sub, w ∈ ipWords a) →
      ∀ t ∈ sub.map hexChars, t ≠ [] ∧ t.length ≤ 4 ∧ t.all isHexD = true := by
    intro sub hsub t ht
    rw [List.mem_map] at ht
    obtain ⟨w, hwmem, rfl⟩ := ht
    have hw : w < 65536 := hlt w (hsub w hwmem)
    exact ⟨hexChars_ne_nil w, hexChars_len4 w hw, hexChars_all_hex w (by
      calc w < 65536 := hw
        _ ≤ 16 ^ 40 := by norm_num)⟩
  cases hbr : bestRun (ipWords a) with
  | none =>
    rw [ntop6_shape_norun a hbr]
    exact ip6REmatch_one _ (htok _ (fun w hw => hw)) (by rw [List.length_map, hlen8])
  | some bl =>
    obtain ⟨b, l⟩ := bl
    obtain ⟨hl2, hbl8', _⟩ := bestRun_spec _ _ _ hbr
    rw [hlen8] at hbl8'
    by_cases hemb : embedClause (ipWords a) (some (b, l)) = true
    · simp only [embedClause, Bool.and_eq_true, Bool.or_eq_true, decide_eq_true_eq,
        bne_iff_ne] at hemb
      obtain ⟨hb0, hlcases⟩ := hemb
      subst hb0
      rcases hlcases with (hl6 | ⟨hl7, _⟩) | ⟨hl5, hw5⟩
      · exfalso
        apply hnd
        subst hl6
        rw [ntop6_shape_embed6 a hbr]
        exact List.mem_cons_of_mem _ (List.mem_cons_of_mem _
          (dot_mem_ntop4 ((ipWords a).getD 6 0 * 65536 + (ipWords a).getD 7 0)))
      · subst hl7
        rw [ntop6_shape_run07 a hbr]
        rw [show (':' :: ':' :: joinColon (((ipWords a).drop 7).map hexChars)) =
          joinColon ([] : List (List Char)) ++ ':' :: ':' ::
            joinColon (((ipWords a).drop 7).map hexChars) from rfl]
        apply ip6REmatch_two _ _ (by simp) (htok _ (fun w hw => List.drop_subset _ _ hw))
        simp only [List.length_nil, List.length_map, List.length_drop, hlen8]
        omega
      · exfalso
        apply hnd
        subst hl5
        rw [ntop6_shape_embed5 a hbr hw5]
        exact List.mem_cons_of_mem _ (List.mem_cons_of_mem _ (List.mem_append.2
          (Or.inr (List.mem_cons_of_mem _
            (dot_mem_ntop4 ((ipWords a).getD 6 0 * 65536 + (ipWords a).getD 7 0))))))
    · have hembf : embedClause (ipWords a) (some (b, l)) = false := by
        cases hE : embedClause (ipWords a) (some (b, l)) with
        | false => rfl
        | true => exact absurd hE hemb
      rw [ntop6_shape_run a b l hbr hembf]
      apply ip6REmatch_two _ _ (htok _ (fun w hw => List.take_subset _ _ hw))
        (htok _ (fun w hw => List.drop_subset _ _ hw))
      simp only [List.length_map, List.length_take, List.length_drop, hlen8]
      omega

theorem wrapCore_cidr_ge (t s' : List Char) (c : Int) (h : wrapCore t = .ok (s', c)) :
    -1 ≤ c := by
  unfold wrapCore at h
  split at h
  · injection h with h'
    injection h' with _ h2
    omega
  · split at h
    · split at h
      · split at h
        · injection h with h'
          injection h' with _ h2
          rw [← h2]
          omega
        · split at h
          · split at h
            · rename_i p hmp
              injection h with h'
              injection h' with _ h2
              subst h2
              unfold masktoplen at hmp
              split at hmp
              · rename_i q hq
                injection hmp with h3
                rw [← h3]
                omega
              · cases hmp
            · cases h
          · injection h with h'
            injection h' with _ h2
            omega
      · injection h with h'
        injection h' with _ h2
        omega
    · injection h with h'
      injection h' with _ h2
      omega

theorem mkIPAddrE_ok_inv (s : List Char) (v : IPAddr) (h : mkIPAddrE s = .ok v) :
    ∃ s' c, wrapIpstr s = .ok (s', c) ∧ v = initIP s' c ∧ -1 ≤ c := by
  unfold mkIPAddrE at h
  cases hw : wrapIpstr s with
  | error e => rw [hw] at h; cases h
  | ok p =>
    obtain ⟨s', c⟩ := p
    rw [hw] at h
    injection h with h'
    refine ⟨s', c, rfl, h'.symm, ?_⟩
    unfold wrapIpstr at hw
    exact wrapCore_cidr_ge _ _ _ hw

theorem and_mask_idem (x m : Nat) : x &&& m &&& m = x &&& m := by
  rw [Nat.and_assoc, Nat.and_self]

theorem initIP_inv (s : List Char) (c : Int) (v : IPAddr) (hc : -1 ≤ c)
    (hv : initIP s c = v) :
    0 ≤ v.plen ∧
    (v.family = 2 → v.addr < 4294967296 ∧
      v.addr &&& mask4n v.plen.toNat = v.addr) ∧
    (v.family = 10 →
      v.addr < 340282366920938463463374607431768211456 ∧
      v.addr &&& mask6n v.plen.toNat = v.addr) := by
  have hm32 : ∀ x : Nat, x < 4294967296 → x &&& mask4n 32 = x := by
    intro x hx
    rw [show mask4n 32 = 2 ^ 32 - 1 from by decide, Nat.and_pow_two_sub_one_eq_mod]
    omega
  have hm128 : ∀ x : Nat, x < 340282366920938463463374607431768211456 →
      x &&& mask6n 128 = x := by
    intro x hx
    rw [show mask6n 128 = 2 ^ 128 - 1 from by decide, Nat.and_pow_two_sub_one_eq_mod]
    omega
  unfold initIP at hv
  rw [if_neg (by omega : ¬ c = -2), if_neg (by omega : ¬ c < -2)] at hv
  split at hv
  · rename_i a hp4
    have ha := pton4_lt s a hp4
    split at hv
    · rename_i h0
      subst hv
      dsimp only
      refine ⟨h0, fun _ => ⟨?_, ?_⟩, fun h10 => absurd h10 (by decide)⟩
      · calc a &&& mask4n c.toNat ≤ a := Nat.and_le_left
          _ < 4294967296 := ha
      · exact and_mask_idem a (mask4n c.toNat)
    · subst hv
      dsimp only
      exact ⟨by omega, fun _ => ⟨ha, hm32 a ha⟩, fun h10 => absurd h10 (by decide)⟩
  · split at hv
    · rename_i a hp6
      rw [if_neg (by omega : ¬ c < -2)] at hp6
      have ha := pton6_lt s a hp6
      split at hv
      · rename_i h0
        subst hv
        dsimp only
        refine ⟨h0, fun h2 => absurd h2 (by decide), fun _ => ⟨?_, ?_⟩⟩
        · calc a &&& mask6n c.toNat ≤ a := Nat.and_le_left
            _ < 340282366920938463463374607431768211456 := ha
        · exact and_mask_idem a (mask6n c.toNat)
      · split at hv
        · subst hv
          dsimp only
          have hb : a &&& 0xFFFFFFFF < 4294967296 := by
            calc a &&& 0xFFFFFFFF ≤ 0xFFFFFFFF := Nat.and_le_right
              _ < 4294967296 := by norm_num
          exact ⟨by omega, fun _ => ⟨hb, hm32 _ hb⟩, fun h10 => absurd h10 (by decide)⟩
        · subst hv
          dsimp only
          exact ⟨by omega, fun h2 => absurd h2 (by decide), fun _ => ⟨ha, hm128 a ha⟩⟩
    · subst hv
      dsimp only
      exact ⟨le_refl 0, fun h2 => absurd h2 (by decide), fun h10 => absurd h10 (by decide)⟩

theorem slash_not_mem_ntop4 (a : Nat) : ¬ '/' ∈ ntop4 a := by
  intro hm
  rcases mem_ntop4_chars a '/' hm with hd | hd
  · exact absurd hd (by decide)
  · exact absurd hd (by decide)

theorem slash_not_mem_ntop6 (a : Nat) : ¬ '/' ∈ ntop6 a := by
  intro hm
  rcases mem_ntop6_chars a '/' hm with hd | hd | hd
  · exact absurd hd (by decide)
  · exact absurd hd (by decide)
  · exact absurd hd (by decide)

theorem slash_not_mem_decChars (n : Nat) (hn : n < 10 ^ 40) : ¬ '/' ∈ decChars n := by
  intro hm
  have hall := decChars_all_digits n hn
  rw [List.all_eq_true] at hall
  exact absurd (hall '/' hm) (by decide)

theorem head?_append_of_ne_nil (l r : List Char) (h : l ≠ []) :
    (l ++ r).head? = l.head? := by
  cases l with
  | nil => exact absurd rfl h
  | cons c t => rfl

theorem ntop4_head_ne_lbracket (a : Nat) : (ntop4 a).head? ≠ some '[' := by
  cases hn : ntop4 a with
  | nil => exact absurd hn (ntop4_ne_nil a)
  | cons c t =>
    intro h
    injection h with h'
    subst h'
    have hc : '[' ∈ ntop4 a := by rw [hn]; exact List.mem_cons_self _ _
    rcases mem_ntop4_chars a '[' hc with hd | hd
    · exact absurd hd (by decide)
    · exact absurd hd (by decide)

theorem ntop6_ne_nil (a : Nat) : ntop6 a ≠ [] := by
  intro h
  have := colon_mem_ntop6 a
  rw [h] at this
  cases this

theorem ntop6_head_ne_lbracket (a : Nat) : (ntop6 a).head? ≠ some '[' := by
  cases hn : ntop6 a with
  | nil => exact absurd hn (ntop6_ne_nil a)
  | cons c t =>
    intro h
    injection h with h'
    subst h'
    have hc : '[' ∈ ntop6 a := by rw [hn]; exact List.mem_cons_self _ _
    rcases mem_ntop6_chars a '[' hc with hd | hd | hd
    · exact absurd hd (by decide)
    · exact absurd hd (by decide)
    · exact absurd hd (by decide)

theorem wrapIpstr_no_bracket (s0 : List Char) (hh : s0.head? ≠ some '[') :
    wrapIpstr s0 = wrapCore s0 := by
  unfold wrapIpstr
  congr 1
  rw [if_neg ?_]
  intro hcond
  simp only [Bool.and_eq_true, decide_eq_true_eq] at hcond
  exact hh hcond.1.2

theorem eqIP_of_fields (w v : IPAddr) (hf : w.family = v.family) (hf0 : v.family ≠ 0)
    (ha : w.addr = v.addr) (hp : w.plen = v.plen) : eqIP w v = true := by
  unfold eqIP
  rw [hf, ha, hp]
  rw [if_neg (by simp), if_neg hf0]
  simp

theorem reparse4_plain (a : Nat) (ha : a < 4294967296) :
    mkIPAddrE (ntop4 a) = .ok ⟨2, a, 32, ntop4 a⟩ := by
  have hnc : (ntop4 a).contains '/' = false := by
    simp only [List.contains]
    simp only [List.elem_eq_mem, decide_eq_false_iff_not]
    exact slash_not_mem_ntop4 a
  unfold mkIPAddrE
  rw [wrapIpstr_no_bracket _ (ntop4_head_ne_lbracket a)]
  unfold wrapCore
  rw [hnc]
  simp only [Bool.not_false, if_true]
  unfold initIP
  rw [if_neg (by omega : ¬ (-1 : Int) = -2), if_neg (by omega : ¬ (-1 : Int) < -2)]
  rw [pton4_ntop4 a ha]
  dsimp only
  rw [if_neg (by omega : ¬ (0 : Int) ≤ -1)]

theorem reparse4_cidr (a p : Nat) (ha : a < 4294967296) (hp32 : p < 32)
    (hmask : a &&& mask4n p = a) :
    mkIPAddrE (ntop4 a ++ '/' :: decChars p) = .ok ⟨2, a, (p : Int), ntop4 a⟩ := by
  have hp40 : p < 10 ^ 40 := lt_of_lt_of_le hp32 (by norm_num)
  have hh : (ntop4 a ++ '/' :: decChars p).head? ≠ some '[' := by
    rw [head?_append_of_ne_nil _ _ (ntop4_ne_nil a)]
    exact ntop4_head_ne_lbracket a
  have hc : (ntop4 a ++ '/' :: decChars p).contains '/' = true := by
    simp only [List.contains, List.elem_eq_mem]
    exact decide_eq_true (List.mem_append.2 (Or.inr (List.mem_cons_self _ _)))
  have hsplit : splitOnC '/' (ntop4 a ++ '/' :: decChars p) = [ntop4 a, decChars p] := by
    rw [splitOnC_append_sep '/' _ _ (slash_not_mem_ntop4 a),
      splitOnC_sep_free '/' _ (slash_not_mem_decChars p hp40)]
  have hwrap : wrapCore (ntop4 a ++ '/' :: decChars p) = .ok (ntop4 a, (p : Int)) := by
    unfold wrapCore
    rw [hc]
    simp only [Bool.not_true, Bool.false_eq_true, if_false]
    simp only [hsplit]
    rw [ip4REmatch_ntop4 a ha]
    simp only [Bool.true_or, if_true]
    rw [isEmpty_false_of_ne_nil _ (decChars_ne_nil p), decChars_all_digits p hp40]
    simp only [Bool.not_false, Bool.and_true, if_true]
    rw [decChars_val p hp40]
  unfold mkIPAddrE
  rw [wrapIpstr_no_bracket _ hh, hwrap]
  dsimp only
  unfold initIP
  rw [if_neg (by omega : ¬ (p : Int) = -2), if_neg (by omega : ¬ (p : Int) < -2)]
  rw [pton4_ntop4 a ha]
  dsimp only
  rw [if_pos (by omega : (0 : Int) ≤ (p : Int))]
  rw [show ((p : Int)).toNat = p from Int.toNat_natCast p, hmask]

theorem reparse6_plain (a : Nat)
    (ha : a < 340282366920938463463374607431768211456)
    (hnc : ¬ a &&& mask6n 96 = 0xFFFF00000000) :
    mkIPAddrE (ntop6 a) = .ok ⟨10, a, 128, ntop6 a⟩ := by
  have hcf : (ntop6 a).contains '/' = false := by
    simp only [List.contains, List.elem_eq_mem, decide_eq_false_iff_not]
    exact slash_not_mem_ntop6 a
  unfold mkIPAddrE
  rw [wrapIpstr_no_bracket _ (ntop6_head_ne_lbracket a)]
  unfold wrapCore
  rw [hcf]
  simp only [Bool.not_false, if_true]
  unfold initIP
  rw [if_neg (by omega : ¬ (-1 : Int) = -2), if_neg (by omega : ¬ (-1 : Int) < -2)]
  rw [pton4_none_of_colon _ (colon_mem_ntop6 a)]
  dsimp only
  rw [if_neg (by omega : ¬ (-1 : Int) < -2)]
  rw [pton6_ntop6 a ha]
  dsimp only
  rw [if_neg (by omega : ¬ (0 : Int) ≤ -1), if_neg hnc]

theorem reparse6_cidr (a p : Nat)
    (ha : a < 340282366920938463463374607431768211456) (hp128 : p < 128)
    (hmask : a &&& mask6n p = a) (hnd : ¬ '.' ∈ ntop6 a) :
    mkIPAddrE (ntop6 a ++ '/' :: decChars p) = .ok ⟨10, a, (p : Int), ntop6 a⟩ := by
  have hp40 : p < 10 ^ 40 := lt_of_lt_of_le hp128 (by norm_num)
  have hh : (ntop6 a ++ '/' :: decChars p).head? ≠ some '[' := by
    rw [head?_append_of_ne_nil _ _ (ntop6_ne_nil a)]
    exact ntop6_head_ne_lbracket a
  have hc : (ntop6 a ++ '/' :: decChars p).contains '/' = true := by
    simp only [List.contains, List.elem_eq_mem]
    exact decide_eq_true (List.mem_append.2 (Or.inr (List.mem_cons_self _ _)))
  have hsplit : splitOnC '/' (ntop6 a ++ '/' :: decChars p) = [ntop6 a, decChars p] := by
    rw [splitOnC_append_sep '/' _ _ (slash_not_mem_ntop6 a),
      splitOnC_sep_free '/' _ (slash_not_mem_decChars p hp40)]
  have hwrap : wrapCore (ntop6 a ++ '/' :: decChars p) = .ok (ntop6 a, (p : Int)) := by
    unfold wrapCore
    rw [hc]
    simp only [Bool.not_true, Bool.false_eq_true, if_false]
    simp only [hsplit]
    rw [ip6REmatch_ntop6_nodot a hnd]
    simp only [Bool.or_true, if_true]
    rw [isEmpty_false_of_ne_nil _ (decChars_ne_nil p), decChars_all_digits p hp40]
    simp only [Bool.not_false, Bool.and_true, if_true]
    rw [decChars_val p hp40]
  unfold mkIPAddrE
  rw [wrapIpstr_no_bracket _ hh, hwrap]
  dsimp only
  unfold initIP
  rw [if_neg (by omega : ¬ (p : Int) = -2), if_neg (by omega : ¬ (p : Int) < -2)]
  rw [pton4_none_of_colon _ (colon_mem_ntop6 a)]
  dsimp only
  rw [if_neg (by omega : ¬ (p : Int) < -2)]
  rw [pton6_ntop6 a ha]
  dsimp only
  rw [if_pos (by omega : (0 : Int) ≤ (p : Int))]
  rw [show ((p : Int)).toNat = p from Int.toNat_natCast p, hmask]

/-- Claim C3 (corrected): for every string that constructs successfully, the
host bits below `plen` are masked to zero (for both families, any prefix
length); and the `ntoa` text reconstructs an equal value provided the stored
prefix length is printable and re-parseable: for IPv4 when `0 < plen ≤ 32`,
for IPv6 when `plen = 128` and the address is not in the v4-compat net
`::ffff:0:0/96` (whose reparse converts to IPv4), or when `0 < plen < 128`
and `inet_ntop` does not print an embedded dotted quad (the `/plen` CIDR
regex has no IPv6-dotted alternative). -/
theorem claim3_amended_roundtrip (s : List Char) (v : IPAddr)
    (hok : mkIPAddrE s = .ok v) :
    (v.family = 2 → v.addr &&& mask4n v.plen.toNat = v.addr) ∧
    (v.family = 10 → v.addr &&& mask6n v.plen.toNat = v.addr) ∧
    (((v.family = 2 ∧ 0 < v.plen ∧ v.plen ≤ 32) ∨
      (v.family = 10 ∧ v.plen = 128 ∧ ¬ v.addr &&& mask6n 96 = 0xFFFF00000000) ∨
      (v.family = 10 ∧ 0 < v.plen ∧ v.plen < 128 ∧ ¬ '.' ∈ ntop6 v.addr)) →
      ∃ w, mkIPAddrE (ntoa v) = .ok w ∧ eqIP w v = true) := by
  obtain ⟨s', c, hw, hv, hc⟩ := mkIPAddrE_ok_inv s v hok
  obtain ⟨hplen0, hf4, hf6⟩ := initIP_inv s' c v hc hv.symm
  refine ⟨fun h2 => (hf4 h2).2, fun h10 => (hf6 h10).2, ?_⟩
  rintro (⟨hf2, hpp, hp32⟩ | ⟨hf10, hp128, hncompat⟩ | ⟨hf10, hpp, hplt, hnd⟩)
  · obtain ⟨haddr, hmask⟩ := hf4 hf2
    by_cases hpe : v.plen < 32
    · have hntoa : ntoa v = ntop4 v.addr ++ '/' :: decChars v.plen.toNat := by
        unfold ntoa
        rw [if_pos hf2, if_pos ⟨by omega, hpe⟩]
      rw [hntoa, reparse4_cidr v.addr v.plen.toNat haddr (by omega) hmask]
      refine ⟨_, rfl, eqIP_of_fields _ _ hf2.symm (by rw [hf2]; decide) rfl ?_⟩
      exact Int.toNat_of_nonneg hplen0
    · have hp32e : v.plen = 32 := by omega
      have hntoa : ntoa v = ntop4 v.addr := by
        unfold ntoa
        rw [if_pos hf2, if_neg (by omega : ¬ (v.plen ≠ 0 ∧ v.plen < 32)),
          List.append_nil]
      rw [hntoa, reparse4_plain v.addr haddr]
      exact ⟨_, rfl, eqIP_of_fields _ _ hf2.symm (by rw [hf2]; decide) rfl hp32e.symm⟩
  · obtain ⟨haddr, _⟩ := hf6 hf10
    have hntoa : ntoa v = ntop6 v.addr := by
      unfold ntoa
      rw [if_neg (by rw [hf10]; decide), if_pos hf10,
        if_neg (by omega : ¬ (v.plen ≠ 0 ∧ v.plen < 128)), List.append_nil]
    rw [hntoa, reparse6_plain v.addr haddr hncompat]
    exact ⟨_, rfl, eqIP_of_fields _ _ hf10.symm (by rw [hf10]; decide) rfl hp128.symm⟩
  · obtain ⟨haddr, hmask⟩ := hf6 hf10
    have hntoa : ntoa v = ntop6 v.addr ++ '/' :: decChars v.plen.toNat := by
      unfold ntoa
      rw [if_neg (by rw [hf10]; decide), if_pos hf10, if_pos ⟨by omega, hplt⟩]
    rw [hntoa, reparse6_cidr v.addr v.plen.toNat haddr (by omega) hmask hnd]
    refine ⟨_, rfl, eqIP_of_fields _ _ hf10.symm (by rw [hf10]; decide) rfl ?_⟩
    exact Int.toNat_of_nonneg hplen0

/-- Claim C3 counterexample: `"0.0.0.0/0"` parses to a valid IPv4 value with
prefix length `0`, but `ntoa` prints no `/0` suffix (`plen` is falsy), so the
reparse yields prefix length `32` and compares unequal — the unconditional
roundtrip stated by the spec fails. -/
theorem claim3_counterexample :
    (mkIPAddrE ("0.0.0.0/0".data)).map (fun v =>
      (isValidIP v, (mkIPAddrE (ntoa v)).map (fun w => eqIP w v))) =
    .ok (true, .ok false) := by decide

/-- Claim C3 witness: `"192.0.2.1/24"` constructs an IPv4 value with masked
host bits, and the amended roundtrip reconstructs an equal value from its
`ntoa` text. -/
theorem claim3_amended_roundtrip_witness :
    mkIPAddrE ("192.0.2.1/24".data) =
      .ok ⟨2, 3221225984, 24, "192.0.2.1".data⟩ ∧
    ∃ w, mkIPAddrE (ntoa (⟨2, 3221225984, 24, "192.0.2.1".data⟩ : IPAddr)) = .ok w ∧
      eqIP w ⟨2, 3221225984, 24, "192.0.2.1".data⟩ = true :=
  ⟨by decide,
    (claim3_amended_roundtrip ("192.0.2.1/24".data)
      ⟨2, 3221225984, 24, "192.0.2.1".data⟩ (by decide)).2.2 (Or.inl (by decide))⟩
